import Mathlib

/-!
Shallow embedding of the cooperative coroutine runtime of the repository
(`src/step5.cpp`, `src/step6.cpp`, `src/stepHX.cpp`) and theorems settling the
specification's claims about it.

Modelling conventions:
* coroutine handles (`std::coroutine_handle<>`) are natural numbers; a
  possibly-null handle is an `Option Nat`;
* `std::chrono::system_clock::time_point` is a natural number (tick count);
* C++ exception payloads (`std::exception_ptr`) are values of an abstract
  type `E`;
* `Uninitialized<T>` result cells are `Option` values (`none` = not yet
  constructed).
-/

namespace LearningCXX

/-- Value returned by an `await_suspend` that returns a coroutine handle:
either a symmetric transfer to a concrete coroutine, or
`std::noop_coroutine()` (control goes back to the resumer, i.e. the
executor). -/
inductive Resumption where
  | transfer (h : Nat)
  | noop
deriving DecidableEq

namespace Step6

/-- `Promise<T>` of step6.cpp (identical in the relevant fields to
`Promise<T>` of step5.cpp): the continuation link `mPrevious`, the exception
slot `mException` and the result cell `mResult`. -/
structure Promise (E V : Type) where
  mPrevious : Option Nat := none
  mException : Option E := none
  mResult : Option V := none
deriving DecidableEq

/-- `PreviousAwaiter::await_suspend`: if `mPrevious` is a non-null handle,
transfer control to it, otherwise return `std::noop_coroutine()`. -/
def PreviousAwaiter.awaitSuspend (mPrevious : Option Nat) : Resumption :=
  match mPrevious with
  | some h => .transfer h
  | none => .noop

/-- `Promise<T>::final_suspend` returns `PreviousAwaiter(mPrevious)`; the
resumption performed at the task's final suspension point is therefore
`PreviousAwaiter::await_suspend` applied to the stored continuation link. -/
def Promise.finalSuspendResumption (p : Promise E V) : Resumption :=
  PreviousAwaiter.awaitSuspend p.mPrevious

/-- `Promise<T>::unhandled_exception`: store the in-flight exception in the
exception slot. -/
def Promise.unhandledException (p : Promise E V) (e : E) : Promise E V :=
  { p with mException := some e }

/-- `Promise<T>::return_value`: construct the result cell from the returned
value. -/
def Promise.returnValue (p : Promise E V) (v : V) : Promise E V :=
  { p with mResult := some v }

/-- `Promise<T>::result()` (called by `Task<T>::Awaiter::await_resume`):
rethrow the stored exception if there is one, otherwise move the stored value
out.  `none` models the undefined behaviour of calling `result()` before the
task completed (moving from an uninitialized cell). -/
def Promise.result (p : Promise E V) : Option (Except E V) :=
  match p.mException with
  | some e => some (.error e)
  | none =>
    match p.mResult with
    | some v => some (.ok v)
    | none => none

/-- `Loop::TimerEntry` of step6.cpp (step5.cpp is identical): an expiration
time point and the coroutine handle to resume. -/
structure TimerEntry where
  expireTime : Nat
  coroutine : Nat
deriving DecidableEq

instance : Inhabited TimerEntry := ⟨⟨0, 0⟩⟩

/-- `TimerEntry::operator<`: `expireTime > that.expireTime` (so that the
max-`priority_queue` becomes a min-heap on expiration time). -/
def TimerEntry.lt (a b : TimerEntry) : Bool :=
  decide (b.expireTime < a.expireTime)

/-- `Loop` of step6.cpp (and step5.cpp): the ready deque and the timer heap.
`mTimerHeap` is the backing vector of the `std::priority_queue`. -/
structure Loop where
  mReadyQueue : List Nat := []
  mTimerHeap : List TimerEntry := []
deriving DecidableEq

/-- `Loop::addTask`: `mReadyQueue.push_front(coroutine)` — note the front. -/
def Loop.addTask (l : Loop) (h : Nat) : Loop :=
  { l with mReadyQueue := h :: l.mReadyQueue }

/-- Enqueue a sequence of resumers with consecutive `addTask` calls. -/
def Loop.addTasks (l : Loop) (hs : List Nat) : Loop :=
  hs.foldl Loop.addTask l

/-- The inner `while (!mReadyQueue.empty())` loop of `Loop::runAll`: it takes
`mReadyQueue.front()`, pops it and resumes it.  Under the claims' premise that
no resumption enqueues further work, the list of handles resumed by the phase
is the deque read front to back. -/
def readyPhaseOrder : List Nat → List Nat
  | [] => []
  | h :: rest => h :: readyPhaseOrder rest

/-- Resume order of the ready-queue phase of `Loop::runAll`. -/
def Loop.readyResumeOrder (l : Loop) : List Nat :=
  readyPhaseOrder l.mReadyQueue

/-- State visible to `Task<T>::Awaiter::await_suspend`: the awaited task's
promise, plus the global scheduler, carried along to record that awaiting a
task never touches it (the code calls no `Loop` member here). -/
structure AwaitStep (E V : Type) where
  promise : Promise E V
  loop : Loop

/-- `Task<T>::Awaiter::await_suspend(coroutine)` where `child` is the awaited
task's own handle (`mCoroutine`) and `parent` the awaiting coroutine: store
`parent` in the task's `mPrevious` and return the task's handle, i.e.
symmetric transfer directly into the task. -/
def taskAwaiterAwaitSuspend (child : Nat) (parent : Nat) (s : AwaitStep E V) :
    AwaitStep E V × Resumption :=
  ({ s with promise := { s.promise with mPrevious := some parent } }, .transfer child)

/-- `std::suspend_always::await_ready` is `false`. -/
def suspendAlwaysAwaitReady : Bool := false

/-- A coroutine frame produced by calling a `Task`-returning coroutine
function.  The user-visible side effects of the body are abstracted as a list
of effect identifiers; `executedEffects` records the ones performed so far. -/
structure ConstructedTask where
  executedEffects : List Nat
  pendingEffects : List Nat
  suspendedAtInitial : Bool
deriving DecidableEq

/-- Invoking a `Task<T>` coroutine function: the compiler-generated ramp
allocates the frame, calls `get_return_object` and evaluates
`co_await promise.initial_suspend()`.  `Promise<T>::initial_suspend` returns
`std::suspend_always`, whose `await_ready` is `false`, so the coroutine
suspends before the first statement of the user body.  (Had `await_ready`
been `true`, the body would have started running at once; that branch models
this by executing the body's effects.) -/
def taskConstruct (body : List Nat) : ConstructedTask :=
  if suspendAlwaysAwaitReady then
    { executedEffects := body, pendingEffects := [], suspendedAtInitial := false }
  else
    { executedEffects := [], pendingEffects := body, suspendedAtInitial := true }

/-- The first resumption of the constructed coroutine runs the user body. -/
def ConstructedTask.resumeFirst (t : ConstructedTask) : ConstructedTask :=
  { executedEffects := t.executedEffects ++ t.pendingEffects,
    pendingEffects := [],
    suspendedAtInitial := false }

end Step6

namespace StepHX

/-- `TimerLoop` of stepHX.cpp: `_timerRBTree` is a
`std::multimap<time_point, coroutine_handle<>>` (kept sorted by key, equal
keys in insertion order) and `_taskQueue` is a `std::queue` (push at the back,
pop at the front). -/
structure TimerLoop where
  timerRBTree : List (Nat × Nat) := []
  taskQueue : List Nat := []
deriving DecidableEq

/-- `TimerLoop::addTask`: `_taskQueue.emplace(coroutine)` pushes at the back
of the queue. -/
def TimerLoop.addTask (l : TimerLoop) (h : Nat) : TimerLoop :=
  { l with taskQueue := l.taskQueue ++ [h] }

/-- Enqueue a sequence of resumers with consecutive `addTask` calls. -/
def TimerLoop.addTasks (l : TimerLoop) (hs : List Nat) : TimerLoop :=
  hs.foldl TimerLoop.addTask l

/-- The inner `while (_taskQueue.size())` loop of `TimerLoop::runAll`: take
`_taskQueue.front()`, pop, resume.  With no new work enqueued during the
phase, the resume order is the queue read front to back. -/
def taskPhaseOrder : List Nat → List Nat
  | [] => []
  | h :: rest => h :: taskPhaseOrder rest

/-- Resume order of the task-queue phase of `TimerLoop::runAll`. -/
def TimerLoop.taskResumeOrder (l : TimerLoop) : List Nat :=
  taskPhaseOrder l.taskQueue

/-- `std::multimap::insert` on the sorted association list: the new
(deadline, coroutine) pair is placed after every stored pair whose key is
less than or equal to its key (libstdc++ inserts at the upper bound), i.e.
sorted by deadline, FIFO among equal deadlines. -/
def multimapInsert : List (Nat × Nat) → Nat × Nat → List (Nat × Nat)
  | [], e => [e]
  | x :: xs, e => if e.1 < x.1 then e :: x :: xs else x :: multimapInsert xs e

/-- `TimerLoop::addTimer`: `_timerRBTree.insert({expireTime, coroutine})`. -/
def TimerLoop.addTimer (l : TimerLoop) (expireTime : Nat) (h : Nat) : TimerLoop :=
  { l with timerRBTree := multimapInsert l.timerRBTree (expireTime, h) }

/-- Timer phase of `TimerLoop::runAll` at a fixed instant `now`: the code
reads `now` once, and if `now >= begin()->first` it repeatedly resumes and
erases the first entry while `now >= begin()->first`.  Returns the entries
resumed, in order. -/
def TimerLoop.runAllTimerPhase (now : Nat) : List (Nat × Nat) → List (Nat × Nat)
  | [] => []
  | e :: rest =>
    if now ≥ e.1 then e :: TimerLoop.runAllTimerPhase now rest else []

/-- Drain performed by `TimerLoop::run`: while the map is non-empty and
`begin()->first < now`, erase and resume the first entry (`now` fixed here to
model one drain at a given instant).  Returns the entries resumed, in
order. -/
def TimerLoop.runTimerPhase (now : Nat) : List (Nat × Nat) → List (Nat × Nat)
  | [] => []
  | e :: rest =>
    if e.1 < now then e :: TimerLoop.runTimerPhase now rest else []

end StepHX

namespace Step6

variable {α : Type} [Inhabited α]

/-- The sift-up loop of libstdc++
`std::__push_heap(first, holeIndex, topIndex, value, comp)`: while the hole is
below `topIndex` and the parent compares less than `value`, move the parent
down into the hole; finally write `value` into the hole.  The first argument
is recursion fuel; the hole index strictly decreases each iteration, so fuel
`holeIndex` suffices. -/
def pushHeapLoop (ltb : α → α → Bool) : Nat → List α → Nat → Nat → α → List α
  | 0, a, hole, _top, value => a.set hole value
  | fuel + 1, a, hole, top, value =>
    if top < hole ∧ ltb (a.getD ((hole - 1) / 2) default) value then
      pushHeapLoop ltb fuel (a.set hole (a.getD ((hole - 1) / 2) default)) ((hole - 1) / 2) top value
    else a.set hole value

/-- libstdc++ `std::push_heap(first, last, comp)`: sift the last element up
from hole `(last - first) - 1` with top index 0. -/
def pushHeap (ltb : α → α → Bool) (a : List α) : List α :=
  pushHeapLoop ltb (a.length - 1) a (a.length - 1) 0 (a.getD (a.length - 1) default)

/-- `std::priority_queue::push`:
`c.push_back(x); std::push_heap(c.begin(), c.end(), comp);`. -/
def heapPush (ltb : α → α → Bool) (a : List α) (x : α) : List α :=
  pushHeap ltb (a ++ [x])

/-- Child selection inside libstdc++ `std::__adjust_heap`: with
`__secondChild = 2 * (__secondChild + 1)`, take `__secondChild - 1` (the left
child) when `__comp(__first + __secondChild, __first + (__secondChild - 1))`
holds, else keep the right child. -/
def adjustChild (ltb : α → α → Bool) (a : List α) (hole : Nat) : Nat :=
  if ltb (a.getD (2 * (hole + 1)) default) (a.getD (2 * (hole + 1) - 1) default) then
    2 * (hole + 1) - 1
  else 2 * (hole + 1)

/-- The `while (__secondChild < (__len - 1) / 2)` loop of libstdc++
`std::__adjust_heap`: percolate the hole down, always into the child that
compares larger (on a tie, the right child).  On entry to every iteration the
hole index and `__secondChild` agree, so they are merged into one argument;
fuel `len` suffices since the index strictly increases and stays below `len`.
Returns the array and the final hole index. -/
def adjustHeapLoop (ltb : α → α → Bool) : Nat → List α → Nat → Nat → List α × Nat
  | 0, a, hole, _len => (a, hole)
  | fuel + 1, a, hole, len =>
    if hole < (len - 1) / 2 then
      adjustHeapLoop ltb fuel
        (a.set hole (a.getD (adjustChild ltb a hole) default)) (adjustChild ltb a hole) len
    else (a, hole)

/-- libstdc++ `std::__adjust_heap(first, 0, __len, __value, __comp)` as called
by `std::pop_heap`: percolate the hole at index 0 to the bottom, take the
extra step for even lengths (a final left child without a sibling), then sift
`__value` up from the final hole with `std::__push_heap` (top index 0). -/
def adjustHeap (ltb : α → α → Bool) (a : List α) (len : Nat) (value : α) : List α :=
  let p := adjustHeapLoop ltb len a 0 len
  if len % 2 = 0 ∧ p.2 = (len - 2) / 2 then
    let sc := 2 * (p.2 + 1)
    pushHeapLoop ltb (sc - 1) (p.1.set p.2 (p.1.getD (sc - 1) default)) (sc - 1) 0 value
  else
    pushHeapLoop ltb p.2 p.1 p.2 0 value

/-- `std::priority_queue::top`: the front of the backing vector. -/
def heapTop (a : List α) : α := a.getD 0 default

/-- `std::priority_queue::pop`:
`std::pop_heap(c.begin(), c.end(), comp); c.pop_back();`.  With more than one
element, `pop_heap` saves `__value = back()`, writes the old root into the
back slot (immediately dropped by `pop_back`) and runs `__adjust_heap` over
the remaining prefix with `__len = size - 1`; with at most one element the
result is empty. -/
def heapPop (ltb : α → α → Bool) (a : List α) : List α :=
  if a.length ≤ 1 then []
  else adjustHeap ltb a.dropLast (a.length - 1) (a.getD (a.length - 1) default)

/-- Popping every element of the heap, in order (fuelled by the length). -/
def heapPopAllF (ltb : α → α → Bool) : Nat → List α → List α
  | 0, _ => []
  | _, [] => []
  | fuel + 1, a :: rest => heapTop (a :: rest) :: heapPopAllF ltb fuel (heapPop ltb (a :: rest))

/-- The order in which repeated `top`/`pop` calls deliver the heap's
elements, i.e. the order in which `Loop::runAll` resumes pending timers once
they have all expired. -/
def heapPopAll (ltb : α → α → Bool) (a : List α) : List α :=
  heapPopAllF ltb a.length a

/-- `Loop::addTimer`: `mTimerHeap.push({expireTime, coroutine})`. -/
def Loop.addTimer (l : Loop) (expireTime coroutine : Nat) : Loop :=
  { l with mTimerHeap := heapPush TimerEntry.lt l.mTimerHeap ⟨expireTime, coroutine⟩ }

/-- Timer handling of `Loop::runAll` at a fixed instant `now` with an empty
ready queue: each pass of the outer loop pops and resumes the top entry if
`timer.expireTime < nowTime` (strict comparison), otherwise it sleeps.
Returns the entries resumed during the drain, in order. -/
def loopDrainTimersF (now : Nat) : Nat → List TimerEntry → List TimerEntry
  | 0, _ => []
  | _, [] => []
  | fuel + 1, a :: rest =>
    if (heapTop (a :: rest)).expireTime < now then
      heapTop (a :: rest) :: loopDrainTimersF now fuel (heapPop TimerEntry.lt (a :: rest))
    else []

/-- Entries resumed by `Loop::runAll`'s timer handling at instant `now`. -/
def Loop.drainTimers (now : Nat) (a : List TimerEntry) : List TimerEntry :=
  loopDrainTimersF now a.length a

/-- Expiration time stored at index `i` of a timer heap's backing vector. -/
def key (a : List TimerEntry) (i : Nat) : Nat :=
  (a.getD i default).expireTime

/-- The binary-heap invariant `std::priority_queue` maintains on its backing
vector: no parent compares less (with the queue's comparator) than a child of
its.  For `TimerEntry.lt` this says every parent's expiration time is at most
its children's. -/
def IsHeap (ltb : α → α → Bool) (a : List α) : Prop :=
  ∀ i, 0 < i → i < a.length →
    ltb (a.getD ((i - 1) / 2) default) (a.getD i default) = false

variable {E V : Type}

/-- Behaviour of one child awaitable of a combinator, as observed by its
helper coroutine's `co_await t`: an `immediate` child runs to completion
during its first resumption; a `deferred` child suspends inside the runtime
(timer or I/O registration) and completes only when the corresponding wake
event fires later. -/
inductive ChildBehavior (E V : Type) where
  | immediate (r : Except E V)
  | deferred (r : Except E V)

/-- The value or exception the child's `co_await` eventually produces. -/
def ChildBehavior.outcome : ChildBehavior E V → Except E V
  | .immediate r => r
  | .deferred r => r

/-- Whether the child completes during its first resumption. -/
def ChildBehavior.isImmediate : ChildBehavior E V → Bool
  | .immediate _ => true
  | .deferred _ => false

/-- Whether the child eventually completes with a value (rather than an
exception). -/
def ChildBehavior.succeeds (c : ChildBehavior E V) : Bool :=
  match c.outcome with
  | .ok _ => true
  | .error _ => false

/-- Handle of the combinator coroutine (`whenAllImpl` / `whenAnyImpl`), the
coroutine that `WhenAllAwaiter/WhenAnyAwaiter::await_suspend` records in the
control block. -/
def parentHandle : Nat := 0

/-- Observable events of a `when_all` execution: a child task reaching its
final suspension, and the combinator coroutine being resumed (the recorded
exception slot is the one its `await_resume` would rethrow). -/
inductive AllEvent (E : Type) where
  | childFinalized (i : Nat)
  | parentResumed (exc : Option E)
deriving DecidableEq

/-- `WhenAllCtlBlock` of step6.cpp. -/
structure WhenAllCtlBlock (E : Type) where
  mCount : Nat
  mPrevious : Option Nat := none
  mException : Option E := none
deriving DecidableEq

/-- State of a `when_all` execution: the shared control block, the
`Uninitialized` result slots, and the event trace so far. -/
structure WhenAllRunState (E V : Type) where
  control : WhenAllCtlBlock E
  results : List (Option V)
  trace : List (AllEvent E)
deriving DecidableEq

/-- Final suspension of a `ReturnPreviousTask` helper whose `co_return`ed
handle was `control.mPrevious`: `PreviousAwaiter` transfers to it when
non-null, which resumes the combinator coroutine (recorded as a
`parentResumed` event carrying the current shared exception slot, the value
`WhenAllAwaiter::await_resume` would rethrow). -/
def allResumeParent (s : WhenAllRunState E V) : WhenAllRunState E V :=
  match s.control.mPrevious with
  | some _ => { s with trace := s.trace ++ [.parentResumed s.control.mException] }
  | none => s

/-- `whenAllHelper` continuing after `co_await t` delivered outcome `r` (the
child reached its final suspension just before, hence the `childFinalized`
event): on an exception, store it in `control.mException` and
`co_return control.mPrevious`; on a value, `result.putValue(...)`,
`--control.mCount`, and `co_return control.mPrevious` if the count reached
zero, else `co_return nullptr` (no resumption). -/
def whenAllHelperComplete (i : Nat) (r : Except E V) (s : WhenAllRunState E V) :
    WhenAllRunState E V :=
  let s := { s with trace := s.trace ++ [AllEvent.childFinalized i] }
  match r with
  | .error e => allResumeParent { s with control := { s.control with mException := some e } }
  | .ok v =>
    let s := { s with results := s.results.set i (some v) }
    let c := { s.control with mCount := s.control.mCount - 1 }
    if c.mCount == 0 then allResumeParent { s with control := c }
    else { s with control := c }

/-- First resumption of helper `i`: it `co_await`s child `i` (which installs
the helper as the child's continuation and transfers into the child).  An
immediate child completes on the spot; a deferred child leaves the helper
suspended at the `co_await`. -/
def allStartHelper (spec : Nat → ChildBehavior E V) (i : Nat) (s : WhenAllRunState E V) :
    WhenAllRunState E V :=
  match spec i with
  | .immediate r => whenAllHelperComplete i r s
  | .deferred _ => s

/-- Order in which the ready-queue phase of `Loop::runAll` pops the helpers
`1 .. n-1` that `WhenAllAwaiter::await_suspend` pushed with
`getLoop().addTask(t.mCoroutine)` (in index order, each at the front). -/
def helperReadyOrder (n : Nat) : List Nat :=
  (Loop.addTasks {} ((List.range n).drop 1)).readyResumeOrder

/-- Execution of `co_await when_all(t0, …, t(n-1))`:
`WhenAllAwaiter::await_suspend` stores the combinator coroutine in
`control.mPrevious`, pushes helpers `1 .. n-1` onto the ready queue and
symmetrically transfers to helper 0; the scheduler then drains the ready
queue; finally the wake events of the deferred children fire in the order
`wakes` (the ready queue stays empty in between, as helpers enqueue
nothing). -/
def whenAllRun (n : Nat) (spec : Nat → ChildBehavior E V) (wakes : List Nat) :
    WhenAllRunState E V :=
  let s0 : WhenAllRunState E V :=
    { control := { mCount := n, mPrevious := some parentHandle },
      results := List.replicate n none,
      trace := [] }
  let s1 := allStartHelper spec 0 s0
  let s2 := (helperReadyOrder n).foldl (fun s i => allStartHelper spec i s) s1
  wakes.foldl (fun s i => whenAllHelperComplete i (spec i).outcome s) s2

/-- The order in which the children of a combinator run to completion:
immediate children in helper start order (helper 0 first, then the ready
queue order), then the deferred children in wake order. -/
def completionSeq (n : Nat) (spec : Nat → ChildBehavior E V) (wakes : List Nat) : List Nat :=
  ((0 :: helperReadyOrder n).filter fun i => (spec i).isImmediate) ++ wakes

/-- `WhenAnyCtlBlock::kNullIndex = std::size_t(-1)`. -/
def kNullIndex : Nat := 2 ^ 64 - 1

/-- `WhenAnyCtlBlock` of step6.cpp. -/
structure WhenAnyCtlBlock (E : Type) where
  mIndex : Nat := kNullIndex
  mPrevious : Option Nat := none
  mException : Option E := none
deriving DecidableEq

/-- Observable events of a `when_any` execution.  A `parentResumed` event
snapshots the shared exception slot, `mIndex`, and the result slot at
`mIndex` — exactly the data from which the resumed `whenAnyImpl` builds its
`std::variant` result (`in_place_index<mIndex>` of `result[mIndex]`). -/
inductive AnyEvent (E V : Type) where
  | childFinalized (i : Nat)
  | parentResumed (exc : Option E) (index : Nat) (value : Option V)
deriving DecidableEq

/-- State of a `when_any` execution; `indexWrites` logs every store to the
`mIndex` slot, in order. -/
structure WhenAnyRunState (E V : Type) where
  control : WhenAnyCtlBlock E
  results : List (Option V)
  indexWrites : List Nat
  trace : List (AnyEvent E V)
deriving DecidableEq

/-- Final suspension of a `when_any` helper that `co_return`ed
`control.mPrevious`: transfer to the combinator coroutine when the handle is
non-null, recording the snapshot it reads. -/
def anyResumeParent (s : WhenAnyRunState E V) : WhenAnyRunState E V :=
  match s.control.mPrevious with
  | some _ =>
    { s with
      trace := s.trace ++
        [.parentResumed s.control.mException s.control.mIndex
          (s.results.getD s.control.mIndex none)] }
  | none => s

/-- `whenAnyHelper` continuing after `co_await t` delivered outcome `r`: on
an exception, store it and `co_return control.mPrevious`; on a value,
`result.putValue(...)`, then `--control.mIndex = index;` — the predecrement
is immediately overwritten by the assignment, so the net effect is storing
`index` — and `co_return control.mPrevious`. -/
def whenAnyHelperComplete (i : Nat) (r : Except E V) (s : WhenAnyRunState E V) :
    WhenAnyRunState E V :=
  let s := { s with trace := s.trace ++ [AnyEvent.childFinalized i] }
  match r with
  | .error e => anyResumeParent { s with control := { s.control with mException := some e } }
  | .ok v =>
    let s := { s with results := s.results.set i (some v) }
    let s := { s with
      control := { s.control with mIndex := i },
      indexWrites := s.indexWrites ++ [i] }
    anyResumeParent s

/-- First resumption of `when_any` helper `i`, as for `when_all`. -/
def anyStartHelper (spec : Nat → ChildBehavior E V) (i : Nat) (s : WhenAnyRunState E V) :
    WhenAnyRunState E V :=
  match spec i with
  | .immediate r => whenAnyHelperComplete i r s
  | .deferred _ => s

/-- Execution of `co_await when_any(t0, …, t(n-1))`, structured exactly like
`whenAllRun` (the awaiters' `await_suspend` bodies are identical). -/
def whenAnyRun (n : Nat) (spec : Nat → ChildBehavior E V) (wakes : List Nat) :
    WhenAnyRunState E V :=
  let s0 : WhenAnyRunState E V :=
    { control := { mPrevious := some parentHandle },
      results := List.replicate n none,
      indexWrites := [],
      trace := [] }
  let s1 := anyStartHelper spec 0 s0
  let s2 := (helperReadyOrder n).foldl (fun s i => anyStartHelper spec i s) s1
  wakes.foldl (fun s i => whenAnyHelperComplete i (spec i).outcome s) s2

end Step6

namespace StepHX

/-- `AsyncFile` of stepHX.cpp: just the owned file descriptor; `-1` marks the
empty state. -/
structure AsyncFile where
  fd : Int
deriving DecidableEq

/-- `AsyncFile(AsyncFile &&that)`: `_fd(that._fd)` then `that._fd = -1`.
Returns (the new object, the moved-from object). -/
def AsyncFile.moveConstruct (that : AsyncFile) : AsyncFile × AsyncFile :=
  (⟨that.fd⟩, ⟨-1⟩)

/-- `AsyncFile &operator=(AsyncFile &&that)`: `std::swap(_fd, that._fd)`.
Returns (the assigned-to object, the moved-from object). -/
def AsyncFile.moveAssignSwap (self that : AsyncFile) : AsyncFile × AsyncFile :=
  (⟨that.fd⟩, ⟨self.fd⟩)

/-- Observable fd teardown events. -/
inductive FdEvent where
  | removeListener (fd : Int)
  | closeFd (fd : Int)
deriving DecidableEq

/-- `~AsyncFile()`: return immediately when `_fd == -1`; otherwise
`EpollLoop::get().removeListener(_fd)` and then `::close(_fd)`. -/
def AsyncFile.destroy (self : AsyncFile) : List FdEvent :=
  if self.fd = -1 then [] else [.removeListener self.fd, .closeFd self.fd]

/-- One operation on a collection of `AsyncFile` objects, identified by slot
index. -/
inductive FileOp where
  | moveConstructFrom (src : Nat)
  | moveAssign (dst src : Nat)
  | destroy (h : Nat)

/-- A collection of `AsyncFile` objects (`none` = lifetime already ended)
plus the log of teardown events performed so far. -/
structure FileSystemState where
  handles : List (Option AsyncFile)
  events : List FdEvent

/-- Effect of one operation.  Move construction appends a new object built
from the source; move assignment swaps the two descriptors (self-assignment
swaps a slot with itself and changes nothing); destruction runs the
destructor and ends the slot's lifetime.  Operations on dead or out-of-range
slots do nothing. -/
def FileOp.apply (s : FileSystemState) : FileOp → FileSystemState
  | .moveConstructFrom src =>
    match s.handles.getD src none with
    | some f =>
      let p := f.moveConstruct
      { handles := (s.handles.set src (some p.2)) ++ [some p.1], events := s.events }
    | none => s
  | .moveAssign dst src =>
    if dst = src then s
    else
      match s.handles.getD dst none, s.handles.getD src none with
      | some fdst, some fsrc =>
        let p := fdst.moveAssignSwap fsrc
        { handles := (s.handles.set dst (some p.1)).set src (some p.2), events := s.events }
      | _, _ => s
  | .destroy h =>
    match s.handles.getD h none with
    | some f => { handles := s.handles.set h none, events := s.events ++ f.destroy }
    | none => s

/-- Run a sequence of operations starting from freshly constructed
`AsyncFile`s holding the given descriptors. -/
def runFileOps (init : List Int) (ops : List FileOp) : FileSystemState :=
  ops.foldl FileOp.apply ⟨init.map (fun fd => some ⟨fd⟩), []⟩

/-- Whether a possibly-dead handle currently holds descriptor `f`. -/
def fdMatch (f : Int) : Option AsyncFile → Bool
  | some a => a.fd == f
  | none => false

/-- Number of live handles currently holding descriptor `f`. -/
def fdCount (hs : List (Option AsyncFile)) (f : Int) : Nat :=
  hs.countP (fdMatch f)

/-- Invariant tying live descriptors to the teardown log: every descriptor
other than `-1` is held by at most one live `AsyncFile`, and the events so
far are removeListener/close pairs over pairwise-distinct descriptors that
no live handle holds any more. -/
def FdInv (s : FileSystemState) : Prop :=
  (∀ f : Int, f ≠ -1 → fdCount s.handles f ≤ 1) ∧
  ∃ fds : List Int, fds.Nodup ∧
    (∀ f ∈ fds, f ≠ -1 ∧ fdCount s.handles f = 0) ∧
    s.events = fds.flatMap fun f => [FdEvent.removeListener f, FdEvent.closeFd f]

end StepHX

/-! ### General helper lemmas -/

theorem readyPhaseOrder_eq (l : List Nat) : Step6.readyPhaseOrder l = l := by
  induction l with
  | nil => rfl
  | cons h t ih => simp [Step6.readyPhaseOrder, ih]

theorem taskPhaseOrder_eq (l : List Nat) : StepHX.taskPhaseOrder l = l := by
  induction l with
  | nil => rfl
  | cons h t ih => simp [StepHX.taskPhaseOrder, ih]

theorem loop_addTasks_queue (q : List Nat) (t : List Step6.TimerEntry) (hs : List Nat) :
    (Step6.Loop.addTasks ⟨q, t⟩ hs).mReadyQueue = hs.reverse ++ q := by
  induction hs generalizing q with
  | nil => rfl
  | cons h tl ih =>
    show (Step6.Loop.addTasks ⟨h :: q, t⟩ tl).mReadyQueue = _
    rw [ih]
    simp

theorem timerLoop_addTasks_queue (m : List (Nat × Nat)) (q : List Nat) (hs : List Nat) :
    (StepHX.TimerLoop.addTasks ⟨m, q⟩ hs).taskQueue = q ++ hs := by
  induction hs generalizing q with
  | nil => simp [StepHX.TimerLoop.addTasks]
  | cons h tl ih =>
    show (StepHX.TimerLoop.addTasks ⟨m, q ++ [h]⟩ tl).taskQueue = _
    rw [ih]
    simp

/-! ### Heap lemmas (for the `std::priority_queue` of step5/step6) -/

namespace Step6

theorem TimerEntry.lt_eq_false_iff (x y : TimerEntry) :
    TimerEntry.lt x y = false ↔ x.expireTime ≤ y.expireTime := by
  simp [TimerEntry.lt]

theorem TimerEntry.lt_eq_true_iff (x y : TimerEntry) :
    TimerEntry.lt x y = true ↔ y.expireTime < x.expireTime := by
  simp [TimerEntry.lt]

theorem key_set_self (a : List TimerEntry) (i : Nat) (x : TimerEntry)
    (h : i < a.length) : key (a.set i x) i = x.expireTime := by
  simp [key, List.getD_eq_getElem?_getD, List.getElem?_set_eq_of_lt x h]

theorem key_set_ne (a : List TimerEntry) {i j : Nat} (x : TimerEntry)
    (h : i ≠ j) : key (a.set i x) j = key a j := by
  simp [key, List.getD_eq_getElem?_getD, List.getElem?_set_ne h]

theorem getD_dropLast (a : List TimerEntry) {i : Nat} (h : i < a.length - 1) :
    a.dropLast.getD i default = a.getD i default := by
  rw [List.dropLast_eq_take, List.getD_eq_getElem?_getD, List.getD_eq_getElem?_getD,
    List.getElem?_take, if_pos h]

theorem key_dropLast (a : List TimerEntry) {i : Nat} (h : i < a.length - 1) :
    key a.dropLast i = key a i := by
  rw [key, key, getD_dropLast a h]

theorem getD_concat_length (a : List TimerEntry) (x : TimerEntry) :
    (a ++ [x]).getD a.length default = x := by
  simp [List.getD_eq_getElem?_getD, List.getElem?_concat_length]

theorem key_append_left (a b : List TimerEntry) {i : Nat} (h : i < a.length) :
    key (a ++ b) i = key a i := by
  simp [key, List.getD_eq_getElem?_getD, List.getElem?_append, h]

theorem isHeap_key (a : List TimerEntry) :
    IsHeap TimerEntry.lt a ↔
      ∀ i, 0 < i → i < a.length → key a ((i - 1) / 2) ≤ key a i := by
  unfold IsHeap key
  constructor
  · intro h i h1 h2
    exact (TimerEntry.lt_eq_false_iff _ _).1 (h i h1 h2)
  · intro h i h1 h2
    exact (TimerEntry.lt_eq_false_iff _ _).2 (h i h1 h2)

theorem cons_set_perm {α : Type} (t : List α) :
    ∀ (k : Nat) (v d : α), k < t.length →
      (t.getD k d :: t.set k v).Perm (v :: t) := by
  induction t with
  | nil => intro k v d h; simp at h
  | cons y t' ih =>
    intro k v d h
    match k with
    | 0 => exact List.Perm.swap v y t'
    | m + 1 =>
      have hm : m < t'.length := by simpa using h
      exact ((List.Perm.swap y (t'.getD m d) (t'.set m v)).trans
        (List.Perm.cons y (ih m v d hm))).trans (List.Perm.swap v y t')

theorem set_set_perm {α : Type} (a : List α) :
    ∀ (i j : Nat) (v d : α), i < a.length → j < a.length → i ≠ j →
      ((a.set i (a.getD j d)).set j v).Perm (a.set i v) := by
  induction a with
  | nil => intro i j v d hi; simp at hi
  | cons x t ih =>
    intro i j v d hi hj hij
    match i, j with
    | 0, 0 => exact absurd rfl hij
    | 0, m + 1 =>
      have hm : m < t.length := by simpa using hj
      show ((t.getD m d :: t).set (m + 1) v).Perm (v :: t)
      show (t.getD m d :: t.set m v).Perm (v :: t)
      exact cons_set_perm t m v d hm
    | k + 1, 0 =>
      have hk : k < t.length := by simpa using hi
      show (v :: t.set k x).Perm (x :: t.set k v)
      have h1 := cons_set_perm t k x d hk
      have h2 := cons_set_perm t k v d hk
      refine List.Perm.cons_inv (a := t.getD k d) ?_
      exact ((((List.Perm.swap v (t.getD k d) (t.set k x)).trans
        (List.Perm.cons v h1)).trans (List.Perm.swap x v t)).trans
        (List.Perm.cons x h2.symm)).trans (List.Perm.swap (t.getD k d) x (t.set k v))
    | k + 1, m + 1 =>
      have hk : k < t.length := by simpa using hi
      have hm : m < t.length := by simpa using hj
      have hkm : k ≠ m := by omega
      show (x :: (t.set k (t.getD m d)).set m v).Perm (x :: t.set k v)
      exact List.Perm.cons x (ih k m v d hk hm hkm)

theorem set_getD_self {α : Type} (a : List α) :
    ∀ (i : Nat) (d : α), i < a.length → a.set i (a.getD i d) = a := by
  induction a with
  | nil => intro i d h; simp at h
  | cons x t ih =>
    intro i d h
    match i with
    | 0 => rfl
    | m + 1 =>
      have hm : m < t.length := by simpa using h
      show x :: t.set m (t.getD m d) = x :: t
      rw [ih m d hm]

/-- Exit step of the sift-up loop: writing `value` into the hole of an
almost-heap yields a heap, provided `value` dominates the hole's children and
the hole's parent dominates `value`. -/
theorem set_hole_isHeap (a : List TimerEntry) (hole : Nat) (value : TimerEntry)
    (hlen : hole < a.length)
    (h2 : ∀ c, 0 < c → c < a.length → c ≠ hole → (c - 1) / 2 ≠ hole →
      key a ((c - 1) / 2) ≤ key a c)
    (h3 : ∀ c, c < a.length → (c - 1) / 2 = hole → c ≠ hole →
      value.expireTime ≤ key a c)
    (hup : 0 < hole → key a ((hole - 1) / 2) ≤ value.expireTime) :
    IsHeap TimerEntry.lt (a.set hole value) := by
  rw [isHeap_key]
  intro i h1 hi
  rw [List.length_set] at hi
  by_cases hih : i = hole
  · subst hih
    have hp_lt : (i - 1) / 2 < i := Nat.lt_of_le_of_lt (Nat.div_le_self _ 2) (by omega)
    rw [key_set_ne a value (by omega), key_set_self a i value hlen]
    exact hup h1
  · by_cases hph : (i - 1) / 2 = hole
    · rw [key_set_ne a value (fun h => hih h.symm), hph, key_set_self a hole value hlen]
      exact h3 i hi hph hih
    · rw [key_set_ne a value (fun h => hih h.symm), key_set_ne a value (fun h => hph h.symm)]
      exact h2 i h1 hi hih hph

/-- The sift-up loop `std::__push_heap` (top index 0) restores the heap
invariant from the hole invariant. -/
theorem pushHeapLoop_isHeap :
    ∀ (fuel : Nat) (a : List TimerEntry) (hole : Nat) (value : TimerEntry),
      hole ≤ fuel → hole < a.length →
      (∀ c, 0 < c → c < a.length → c ≠ hole → (c - 1) / 2 ≠ hole →
        key a ((c - 1) / 2) ≤ key a c) →
      (∀ c, c < a.length → (c - 1) / 2 = hole → c ≠ hole →
        value.expireTime ≤ key a c) →
      (∀ c, c < a.length → (c - 1) / 2 = hole → c ≠ hole → 0 < hole →
        key a ((hole - 1) / 2) ≤ key a c) →
      IsHeap TimerEntry.lt (pushHeapLoop TimerEntry.lt fuel a hole 0 value) := by
  intro fuel
  induction fuel with
  | zero =>
    intro a hole value hfuel hlen h2 h3 _h4
    have hh : hole = 0 := Nat.le_zero.mp hfuel
    subst hh
    show IsHeap TimerEntry.lt (a.set 0 value)
    exact set_hole_isHeap a 0 value hlen h2 h3 (by omega)
  | succ fuel ih =>
    intro a hole value hfuel hlen h2 h3 h4
    show IsHeap TimerEntry.lt
      (if 0 < hole ∧ TimerEntry.lt (a.getD ((hole - 1) / 2) default) value then
        pushHeapLoop TimerEntry.lt fuel
          (a.set hole (a.getD ((hole - 1) / 2) default)) ((hole - 1) / 2) 0 value
      else a.set hole value)
    by_cases hcond : 0 < hole ∧ TimerEntry.lt (a.getD ((hole - 1) / 2) default) value
    · rw [if_pos hcond]
      obtain ⟨hpos, hltv⟩ := hcond
      set g := a.getD ((hole - 1) / 2) default with hg
      set p := (hole - 1) / 2 with hp
      have hplt : p < hole := Nat.lt_of_le_of_lt (Nat.div_le_self _ 2) (by omega)
      have hvg : value.expireTime < g.expireTime := (TimerEntry.lt_eq_true_iff _ _).1 hltv
      have hkp : key a p = g.expireTime := rfl
      have hlen' : p < (a.set hole g).length := by rw [List.length_set]; omega
      apply ih (a.set hole g) p value (by omega) hlen'
      · -- edges not touching the new hole p
        intro c hc0 hc hcp hcpp
        rw [List.length_set] at hc
        by_cases hch : c = hole
        · subst hch
          exact absurd rfl hcpp
        · by_cases hpc : (c - 1) / 2 = hole
          · rw [hpc, key_set_self a hole g hlen, key_set_ne a g (fun h => hch h.symm)]
            rw [← hkp]
            exact h4 c hc hpc hch hpos
          · rw [key_set_ne a g (fun h => hpc h.symm), key_set_ne a g (fun h => hch h.symm)]
            exact h2 c hc0 hc hch hpc
      · -- value dominates the children of the new hole p
        intro c hc hcp hcne
        rw [List.length_set] at hc
        by_cases hch : c = hole
        · subst hch
          rw [key_set_self a c g hlen]
          omega
        · rw [key_set_ne a g (fun h => hch h.symm)]
          have hc0 : 0 < c := by
            rcases Nat.eq_zero_or_pos c with h0 | h0
            · subst h0; simp at hcp; omega
            · exact h0
          have := h2 c hc0 hc hch (by rw [hcp]; omega)
          rw [hcp, hkp] at this
          omega
      · -- the parent of p dominates the children of p
        intro c hc hcp hcne hppos
        rw [List.length_set] at hc
        have hpp_lt : (p - 1) / 2 < p := Nat.lt_of_le_of_lt (Nat.div_le_self _ 2) (by omega)
        have hpp_ne : (p - 1) / 2 ≠ hole := by omega
        rw [key_set_ne a g (fun h => hpp_ne h.symm)]
        have hedge_p : key a ((p - 1) / 2) ≤ key a p :=
          h2 p hppos (by omega) (by omega) (by omega)
        by_cases hch : c = hole
        · subst hch
          rw [key_set_self a c g hlen, ← hkp]
          exact hedge_p
        · rw [key_set_ne a g (fun h => hch h.symm)]
          have hc0 : 0 < c := by
            rcases Nat.eq_zero_or_pos c with h0 | h0
            · subst h0; simp at hcp; omega
            · exact h0
          have hedge_c : key a p ≤ key a c := by
            have := h2 c hc0 hc hch (by rw [hcp]; omega)
            rwa [hcp] at this
          omega
    · rw [if_neg hcond]
      apply set_hole_isHeap a hole value hlen h2 h3
      intro hpos
      have : ¬ TimerEntry.lt (a.getD ((hole - 1) / 2) default) value := fun h =>
        hcond ⟨hpos, h⟩
      have hfalse : TimerEntry.lt (a.getD ((hole - 1) / 2) default) value = false :=
        Bool.eq_false_iff.mpr this
      exact (TimerEntry.lt_eq_false_iff _ _).1 hfalse

/-- The sift-up loop permutes the array: its result is the input with `value`
written into the hole (as a multiset). -/
theorem pushHeapLoop_perm :
    ∀ (fuel : Nat) (a : List TimerEntry) (hole : Nat) (value : TimerEntry),
      hole ≤ fuel → hole < a.length →
      (pushHeapLoop TimerEntry.lt fuel a hole 0 value).Perm (a.set hole value) := by
  intro fuel
  induction fuel with
  | zero =>
    intro a hole value _ _
    exact List.Perm.refl _
  | succ fuel ih =>
    intro a hole value hfuel hlen
    show (if 0 < hole ∧ TimerEntry.lt (a.getD ((hole - 1) / 2) default) value then
        pushHeapLoop TimerEntry.lt fuel
          (a.set hole (a.getD ((hole - 1) / 2) default)) ((hole - 1) / 2) 0 value
      else a.set hole value).Perm (a.set hole value)
    by_cases hcond : 0 < hole ∧ TimerEntry.lt (a.getD ((hole - 1) / 2) default) value
    · rw [if_pos hcond]
      have hplt : (hole - 1) / 2 < hole :=
        Nat.lt_of_le_of_lt (Nat.div_le_self _ 2) (by omega)
      have h1 := ih (a.set hole (a.getD ((hole - 1) / 2) default)) ((hole - 1) / 2) value
        (by omega) (by rw [List.length_set]; omega)
      exact h1.trans (set_set_perm a hole ((hole - 1) / 2) value default hlen (by omega) (by omega))
    · rw [if_neg hcond]

/-- Index facts about the chosen child: it is one of the two children of the
hole and its key is minimal among them. -/
theorem adjustChild_facts (a : List TimerEntry) (hole : Nat) :
    2 * hole + 1 ≤ adjustChild TimerEntry.lt a hole ∧
    adjustChild TimerEntry.lt a hole ≤ 2 * hole + 2 ∧
    (adjustChild TimerEntry.lt a hole - 1) / 2 = hole ∧
    (∀ c, (c - 1) / 2 = hole → c ≠ adjustChild TimerEntry.lt a hole → c ≠ hole →
      key a (adjustChild TimerEntry.lt a hole) ≤ key a c) := by
  unfold adjustChild
  by_cases hcomp :
      TimerEntry.lt (a.getD (2 * (hole + 1)) default) (a.getD (2 * (hole + 1) - 1) default)
  · rw [if_pos hcomp]
    have hlt := (TimerEntry.lt_eq_true_iff _ _).1 hcomp
    refine ⟨by omega, by omega, by omega, ?_⟩
    intro c hc hcne hch
    have : c = 2 * hole + 2 := by omega
    subst this
    show key a (2 * (hole + 1) - 1) ≤ key a (2 * (hole + 1))
    unfold key
    omega
  · rw [if_neg hcomp]
    have hfalse : TimerEntry.lt (a.getD (2 * (hole + 1)) default)
        (a.getD (2 * (hole + 1) - 1) default) = false := Bool.eq_false_iff.mpr hcomp
    have hle := (TimerEntry.lt_eq_false_iff _ _).1 hfalse
    refine ⟨by omega, by omega, by omega, ?_⟩
    intro c hc hcne hch
    have : c = 2 * hole + 1 := by omega
    subst this
    show key a (2 * (hole + 1)) ≤ key a (2 * hole + 1)
    unfold key at hle ⊢
    have : 2 * (hole + 1) - 1 = 2 * hole + 1 := by omega
    rwa [this] at hle

/-- Full specification of the percolate-down loop of `std::__adjust_heap`:
lengths are preserved, the final hole is in range and below no further
full pair of children, the hole invariants persist, and writing any value
into the final hole is, as a multiset, writing it into the initial hole. -/
theorem adjustHeapLoop_spec :
    ∀ (fuel : Nat) (a : List TimerEntry) (hole len : Nat),
      len = a.length → hole < len → len - hole ≤ fuel →
      (∀ c, 0 < c → c < len → c ≠ hole → (c - 1) / 2 ≠ hole →
        key a ((c - 1) / 2) ≤ key a c) →
      (∀ c, c < len → (c - 1) / 2 = hole → c ≠ hole → 0 < hole →
        key a ((hole - 1) / 2) ≤ key a c) →
      ∃ b h1, adjustHeapLoop TimerEntry.lt fuel a hole len = (b, h1) ∧
        b.length = a.length ∧
        h1 < len ∧
        ¬ h1 < (len - 1) / 2 ∧
        (∀ c, 0 < c → c < len → c ≠ h1 → (c - 1) / 2 ≠ h1 →
          key b ((c - 1) / 2) ≤ key b c) ∧
        (∀ c, c < len → (c - 1) / 2 = h1 → c ≠ h1 → 0 < h1 →
          key b ((h1 - 1) / 2) ≤ key b c) ∧
        (∀ v : TimerEntry, (b.set h1 v).Perm (a.set hole v)) := by
  intro fuel
  induction fuel with
  | zero =>
    intro a hole len hlen hhole hfuel _ _
    omega
  | succ fuel ih =>
    intro a hole len hlen hhole hfuel hR2 hR4
    show ∃ b h1,
      (if hole < (len - 1) / 2 then
        adjustHeapLoop TimerEntry.lt fuel
          (a.set hole (a.getD (adjustChild TimerEntry.lt a hole) default))
          (adjustChild TimerEntry.lt a hole) len
      else (a, hole)) = (b, h1) ∧ _
    by_cases hsc : hole < (len - 1) / 2
    · rw [if_pos hsc]
      obtain ⟨hc1, hc2, hcp, hcmin⟩ := adjustChild_facts a hole
      set sc := adjustChild TimerEntry.lt a hole with hscdef
      have hdiv : (len - 1) / 2 * 2 ≤ len - 1 := Nat.div_mul_le_self _ 2
      have hsc_lt : sc < len := by omega
      have hsc_ne : sc ≠ hole := by omega
      obtain ⟨b, h1, heq, hblen, hh1, hh1stop, hbR2, hbR4, hperm⟩ :=
        ih (a.set hole (a.getD sc default)) sc len
          (by rw [List.length_set]; omega) hsc_lt (by omega)
          (by
            intro c hc0 hc hcsc hcpsc
            by_cases hch : c = hole
            · have hchole : 0 < hole := hch ▸ hc0
              have hph : (c - 1) / 2 ≠ hole := by omega
              rw [key_set_ne a _ (fun h => hph h.symm), hch,
                key_set_self a hole _ (by omega)]
              exact hR4 sc hsc_lt hcp hsc_ne hchole
            · by_cases hpc : (c - 1) / 2 = hole
              · rw [hpc, key_set_self a hole _ (by omega), key_set_ne a _ (fun h => hch h.symm)]
                exact hcmin c hpc hcsc hch
              · rw [key_set_ne a _ (fun h => hpc h.symm), key_set_ne a _ (fun h => hch h.symm)]
                exact hR2 c hc0 hc hch hpc)
          (by
            intro c hc hcpsc hcne hscpos
            have hcsc : (sc - 1) / 2 = hole := hcp
            have hch : c ≠ hole := by omega
            rw [hcsc, key_set_self a hole _ (by omega), key_set_ne a _ (fun h => hch h.symm)]
            have h := hR2 c (by omega) hc hch (by omega)
            rw [hcpsc] at h
            exact h)
      refine ⟨b, h1, heq, ?_, hh1, hh1stop, hbR2, hbR4, ?_⟩
      · rw [hblen, List.length_set]
      · intro v
        exact (hperm v).trans
          (set_set_perm a hole sc v default (by omega) (by omega) (by omega))
    · rw [if_neg hsc]
      exact ⟨a, hole, rfl, rfl, hhole, hsc, hR2, hR4, fun v => List.Perm.refl _⟩

/-- `std::__adjust_heap` called on an array that is a heap everywhere except
possibly at the root: the result is a heap and, as a multiset, the array with
`value` written at the root. -/
theorem adjustHeap_spec (a : List TimerEntry) (value : TimerEntry)
    (hlen : 1 ≤ a.length)
    (hR2 : ∀ c, 0 < c → c < a.length → (c - 1) / 2 ≠ 0 → key a ((c - 1) / 2) ≤ key a c) :
    IsHeap TimerEntry.lt (adjustHeap TimerEntry.lt a a.length value) ∧
    (adjustHeap TimerEntry.lt a a.length value).Perm (a.set 0 value) := by
  obtain ⟨b, h1, heq, hblen, hh1, hh1stop, hbR2, hbR4, hperm⟩ :=
    adjustHeapLoop_spec a.length a 0 a.length rfl hlen (by omega)
      (fun c hc0 hc hcne hcp => hR2 c hc0 hc hcp)
      (fun c _ _ _ h0 => absurd h0 (by omega))
  have hgoal : adjustHeap TimerEntry.lt a a.length value =
      if a.length % 2 = 0 ∧ h1 = (a.length - 2) / 2 then
        pushHeapLoop TimerEntry.lt (2 * (h1 + 1) - 1)
          (b.set h1 (b.getD (2 * (h1 + 1) - 1) default)) (2 * (h1 + 1) - 1) 0 value
      else pushHeapLoop TimerEntry.lt h1 b h1 0 value := by
    simp only [adjustHeap, heq]
  rw [hgoal]
  by_cases hev : a.length % 2 = 0 ∧ h1 = (a.length - 2) / 2
  · rw [if_pos hev]
    obtain ⟨heven, hh1v⟩ := hev
    have hlen2 : 2 ≤ a.length := by omega
    have hlast : 2 * (h1 + 1) - 1 = a.length - 1 := by omega
    have hkey_h1 : key (b.set h1 (b.getD (2 * (h1 + 1) - 1) default)) h1
        = key b (a.length - 1) := by
      rw [key_set_self b h1 _ (by omega), hlast]; rfl
    have hmain := pushHeapLoop_isHeap (2 * (h1 + 1) - 1)
      (b.set h1 (b.getD (2 * (h1 + 1) - 1) default)) (2 * (h1 + 1) - 1) value
      (le_refl _) (by rw [List.length_set]; omega)
      (by
        intro c hc0 hc hcne hcp
        rw [List.length_set, hblen] at hc
        by_cases hch : c = h1
        · have hph : (c - 1) / 2 ≠ h1 := by omega
          rw [key_set_ne b _ (fun h => hph h.symm), hch, hkey_h1]
          exact hbR4 (a.length - 1) (by omega) (by omega) (by omega) (hch ▸ hc0)
        · have hpch : (c - 1) / 2 ≠ h1 := by omega
          rw [key_set_ne b _ (fun h => hpch h.symm), key_set_ne b _ (fun h => hch h.symm)]
          exact hbR2 c hc0 hc hch hpch)
      (by
        intro c hc hcp hcne
        rw [List.length_set, hblen] at hc
        omega)
      (by
        intro c hc hcp hcne _
        rw [List.length_set, hblen] at hc
        omega)
    refine ⟨hmain, ?_⟩
    have hp1 := pushHeapLoop_perm (2 * (h1 + 1) - 1)
      (b.set h1 (b.getD (2 * (h1 + 1) - 1) default)) (2 * (h1 + 1) - 1) value
      (le_refl _) (by rw [List.length_set]; omega)
    have hp2 := set_set_perm b h1 (2 * (h1 + 1) - 1) value default
      (by omega) (by omega) (by omega)
    exact (hp1.trans hp2).trans (hperm value)
  · rw [if_neg hev]
    have hnochild : ∀ c, c < a.length → (c - 1) / 2 = h1 → c ≠ h1 → False := by
      intro c hc hcp hcne
      omega
    have hmain := pushHeapLoop_isHeap h1 b h1 value (le_refl _) (by omega)
      (by intro c hc0 hc hcne hcp; rw [hblen] at hc; exact hbR2 c hc0 hc hcne hcp)
      (by intro c hc hcp hcne; rw [hblen] at hc; exact (hnochild c hc hcp hcne).elim)
      (by intro c hc hcp hcne _; rw [hblen] at hc; exact (hnochild c hc hcp hcne).elim)
    refine ⟨hmain, ?_⟩
    exact (pushHeapLoop_perm h1 b h1 value (le_refl _) (by omega)).trans (hperm value)

/-- `priority_queue::push` preserves the heap invariant. -/
theorem heapPush_isHeap (a : List TimerEntry) (x : TimerEntry)
    (h : IsHeap TimerEntry.lt a) : IsHeap TimerEntry.lt (heapPush TimerEntry.lt a x) := by
  have hlen : (a ++ [x]).length = a.length + 1 := by simp
  show IsHeap TimerEntry.lt
    (pushHeapLoop TimerEntry.lt ((a ++ [x]).length - 1) (a ++ [x])
      ((a ++ [x]).length - 1) 0 ((a ++ [x]).getD ((a ++ [x]).length - 1) default))
  rw [hlen]
  have hval : (a ++ [x]).getD (a.length + 1 - 1) default = x := by
    have : a.length + 1 - 1 = a.length := by omega
    rw [this, getD_concat_length]
  rw [hval]
  apply pushHeapLoop_isHeap (a.length + 1 - 1) (a ++ [x]) (a.length + 1 - 1) x
    (le_refl _) (by omega)
  · intro c hc0 hc hcne hcp
    rw [hlen] at hc
    have hclt : c < a.length := by omega
    have hplt : (c - 1) / 2 < a.length := by
      have := Nat.div_le_self (c - 1) 2
      omega
    rw [key_append_left a [x] hclt, key_append_left a [x] hplt]
    exact (isHeap_key a).1 h c hc0 hclt
  · intro c hc hcp hcne
    rw [hlen] at hc
    omega
  · intro c hc hcp hcne _
    rw [hlen] at hc
    omega

theorem set_concat {α : Type} (a : List α) (x y : α) :
    (a ++ [x]).set a.length y = a ++ [y] := by
  induction a with
  | nil => rfl
  | cons h t ih =>
    show h :: (t ++ [x]).set t.length y = h :: (t ++ [y])
    rw [ih]

/-- `priority_queue::push` adds exactly the new element (as a multiset). -/
theorem heapPush_perm (a : List TimerEntry) (x : TimerEntry) :
    (heapPush TimerEntry.lt a x).Perm (x :: a) := by
  have hlen : (a ++ [x]).length = a.length + 1 := by simp
  show (pushHeapLoop TimerEntry.lt ((a ++ [x]).length - 1) (a ++ [x])
      ((a ++ [x]).length - 1) 0 ((a ++ [x]).getD ((a ++ [x]).length - 1) default)).Perm (x :: a)
  have hval : (a ++ [x]).getD ((a ++ [x]).length - 1) default = x := by
    rw [hlen]
    have h1 : a.length + 1 - 1 = a.length := by omega
    rw [h1, getD_concat_length]
  rw [hval]
  have hp := pushHeapLoop_perm ((a ++ [x]).length - 1) (a ++ [x])
    ((a ++ [x]).length - 1) x (le_refl _) (by rw [hlen]; omega)
  have hset : (a ++ [x]).set ((a ++ [x]).length - 1) x = a ++ [x] := by
    rw [hlen]
    have h1 : a.length + 1 - 1 = a.length := by omega
    rw [h1, set_concat]
  rw [hset] at hp
  exact hp.trans (List.perm_append_singleton x a)

/-- `priority_queue::pop` preserves the heap invariant and removes exactly
the top element (as a multiset). -/
theorem heapPop_spec (a : List TimerEntry) (h : IsHeap TimerEntry.lt a)
    (hne : a ≠ []) :
    IsHeap TimerEntry.lt (heapPop TimerEntry.lt a) ∧
    (heapTop a :: heapPop TimerEntry.lt a).Perm a := by
  by_cases hlen : a.length ≤ 1
  · obtain ⟨x, t, rfl⟩ : ∃ x t, a = x :: t := by
      cases a with
      | nil => exact absurd rfl hne
      | cons x t => exact ⟨x, t, rfl⟩
    have ht : t = [] := by
      cases t with
      | nil => rfl
      | cons y t' => simp at hlen
    subst ht
    constructor
    · show IsHeap TimerEntry.lt (heapPop TimerEntry.lt [x])
      intro i h1 h2
      simp [heapPop] at h2
    · show (heapTop [x] :: heapPop TimerEntry.lt [x]).Perm [x]
      show (x :: heapPop TimerEntry.lt [x]).Perm [x]
      have : heapPop TimerEntry.lt [x] = [] := by simp [heapPop]
      rw [this]
  · have hlen2 : 2 ≤ a.length := by omega
    have hdl_len : a.dropLast.length = a.length - 1 := List.length_dropLast a
    have hpop : heapPop TimerEntry.lt a =
        adjustHeap TimerEntry.lt a.dropLast (a.length - 1) (a.getD (a.length - 1) default) := by
      simp [heapPop, hlen]
    have hspec := adjustHeap_spec a.dropLast (a.getD (a.length - 1) default)
      (by omega)
      (by
        intro c hc0 hc hcp
        rw [hdl_len] at hc
        have hplt : (c - 1) / 2 < a.length - 1 := by
          have := Nat.div_le_self (c - 1) 2
          omega
        rw [key_dropLast a hc, key_dropLast a hplt]
        exact (isHeap_key a).1 h c hc0 (by omega))
    rw [hdl_len] at hspec
    constructor
    · rw [hpop]
      exact hspec.1
    · rw [hpop]
      have hperm := hspec.2
      -- `heapTop a :: (dropLast with value at slot 0) ~ a`
      have hb_ne : a.dropLast ≠ [] := by
        intro hnil
        have := congrArg List.length hnil
        rw [hdl_len] at this
        simp at this
        omega
      have htop : a.dropLast.getD 0 default = a.getD 0 default :=
        getD_dropLast a (by omega)
      have hsa : (a.dropLast.getD 0 default :: a.dropLast.set 0 (a.getD (a.length - 1) default)).Perm
          ((a.getD (a.length - 1) default) :: a.dropLast) :=
        cons_set_perm a.dropLast 0 (a.getD (a.length - 1) default) default (by omega)
      have hlast : a.dropLast ++ [a.getD (a.length - 1) default] = a := by
        have hgl : a.getLast hne = a.getD (a.length - 1) default := by
          rw [List.getLast_eq_getElem, List.getD_eq_getElem?_getD,
            List.getElem?_eq_getElem (by omega : a.length - 1 < a.length)]
          rfl
        rw [← hgl]
        exact List.dropLast_append_getLast hne
      have step1 : (heapTop a :: adjustHeap TimerEntry.lt a.dropLast (a.length - 1)
          (a.getD (a.length - 1) default)).Perm
          (heapTop a :: a.dropLast.set 0 (a.getD (a.length - 1) default)) :=
        List.Perm.cons _ hperm
      have step2 : (heapTop a :: a.dropLast.set 0 (a.getD (a.length - 1) default)).Perm
          ((a.getD (a.length - 1) default) :: a.dropLast) := by
        show (a.getD 0 default :: a.dropLast.set 0 (a.getD (a.length - 1) default)).Perm _
        rw [← htop]
        exact hsa
      have step3 : ((a.getD (a.length - 1) default) :: a.dropLast).Perm a := by
        have h3 := (List.perm_append_singleton (a.getD (a.length - 1) default) a.dropLast).symm
        rw [hlast] at h3
        exact h3
      exact (step1.trans step2).trans step3

/-- In a heap, the root's key is minimal. -/
theorem heapTop_min (a : List TimerEntry) (h : IsHeap TimerEntry.lt a) :
    ∀ x ∈ a, (heapTop a).expireTime ≤ x.expireTime := by
  have hidx : ∀ i, i < a.length → key a 0 ≤ key a i := by
    intro i
    induction i using Nat.strong_induction_on with
    | _ i ih =>
      intro hi
      match i with
      | 0 => exact le_refl _
      | j + 1 =>
        have hplt : (j + 1 - 1) / 2 < j + 1 := by
          have := Nat.div_le_self j 2
          omega
        have h1 := ih ((j + 1 - 1) / 2) hplt (by omega)
        have h2 := (isHeap_key a).1 h (j + 1) (by omega) hi
        omega
  intro x hx
  obtain ⟨i, hi, rfl⟩ := List.mem_iff_getElem.1 hx
  have hthis := hidx i hi
  show (a.getD 0 default).expireTime ≤ a[i].expireTime
  have h2 : a.getD i default = a[i] := by
    rw [List.getD_eq_getElem?_getD, List.getElem?_eq_getElem hi]
    rfl
  rw [← h2]
  exact hthis

/-- Popping a heap empty delivers its elements in ascending deadline
order (and exactly its elements). -/
theorem heapPopAllF_spec :
    ∀ (fuel : Nat) (a : List TimerEntry), a.length ≤ fuel →
      IsHeap TimerEntry.lt a →
      (heapPopAllF TimerEntry.lt fuel a).Perm a ∧
      (heapPopAllF TimerEntry.lt fuel a).Pairwise
        (fun x y => x.expireTime ≤ y.expireTime) := by
  intro fuel
  induction fuel with
  | zero =>
    intro a hlen _
    have : a = [] := List.eq_nil_of_length_eq_zero (by omega)
    subst this
    exact ⟨List.Perm.refl _, List.Pairwise.nil⟩
  | succ fuel ih =>
    intro a hlen hheap
    cases a with
    | nil => exact ⟨List.Perm.refl _, List.Pairwise.nil⟩
    | cons x rest =>
      obtain ⟨hpopheap, hpopperm⟩ := heapPop_spec (x :: rest) hheap (by simp)
      have hpoplen : (heapPop TimerEntry.lt (x :: rest)).length = rest.length := by
        have := hpopperm.length_eq
        simp at this ⊢
        omega
      obtain ⟨ihperm, ihsorted⟩ := ih (heapPop TimerEntry.lt (x :: rest))
        (by simp at hlen; omega) hpopheap
      constructor
      · show (heapTop (x :: rest) :: heapPopAllF TimerEntry.lt fuel
          (heapPop TimerEntry.lt (x :: rest))).Perm (x :: rest)
        exact (List.Perm.cons _ ihperm).trans hpopperm
      · show (heapTop (x :: rest) :: heapPopAllF TimerEntry.lt fuel
          (heapPop TimerEntry.lt (x :: rest))).Pairwise _
        rw [List.pairwise_cons]
        constructor
        · intro y hy
          have hy2 : y ∈ heapPop TimerEntry.lt (x :: rest) := ihperm.mem_iff.1 hy
          have hy3 : y ∈ (x :: rest) := hpopperm.mem_iff.1 (List.mem_cons_of_mem _ hy2)
          exact heapTop_min (x :: rest) hheap y hy3
        · exact ihsorted

/-- Soundness of the strict-inequality timer drain of `Loop::runAll`: every
resumed entry had expired strictly before `now`. -/
theorem loopDrainTimersF_sound :
    ∀ (fuel : Nat) (a : List TimerEntry) (now : Nat),
      ∀ e ∈ loopDrainTimersF now fuel a, e.expireTime < now := by
  intro fuel
  induction fuel with
  | zero => intro a now e he; simp [loopDrainTimersF] at he
  | succ fuel ih =>
    intro a now e he
    cases a with
    | nil => simp [loopDrainTimersF] at he
    | cons x rest =>
      by_cases hcond : (heapTop (x :: rest)).expireTime < now
      · rw [show loopDrainTimersF now (fuel + 1) (x :: rest) =
            heapTop (x :: rest) :: loopDrainTimersF now fuel
              (heapPop TimerEntry.lt (x :: rest)) from by
          simp [loopDrainTimersF, hcond]] at he
        rcases List.mem_cons.1 he with rfl | he2
        · exact hcond
        · exact ih _ now e he2
      · rw [show loopDrainTimersF now (fuel + 1) (x :: rest) = [] from by
          simp [loopDrainTimersF, hcond]] at he
        simp at he

/-- Completeness of the timer drain of `Loop::runAll`: every entry that had
expired strictly before `now` is resumed. -/
theorem loopDrainTimersF_complete :
    ∀ (fuel : Nat) (a : List TimerEntry) (now : Nat), a.length ≤ fuel →
      IsHeap TimerEntry.lt a →
      ∀ e ∈ a, e.expireTime < now → e ∈ loopDrainTimersF now fuel a := by
  intro fuel
  induction fuel with
  | zero =>
    intro a now hlen _ e he _
    have : a = [] := List.eq_nil_of_length_eq_zero (by omega)
    subst this
    simp at he
  | succ fuel ih =>
    intro a now hlen hheap e he hlt
    cases a with
    | nil => simp at he
    | cons x rest =>
      obtain ⟨hpopheap, hpopperm⟩ := heapPop_spec (x :: rest) hheap (by simp)
      by_cases hcond : (heapTop (x :: rest)).expireTime < now
      · rw [show loopDrainTimersF now (fuel + 1) (x :: rest) =
            heapTop (x :: rest) :: loopDrainTimersF now fuel
              (heapPop TimerEntry.lt (x :: rest)) from by
          simp [loopDrainTimersF, hcond]]
        have he2 : e ∈ heapTop (x :: rest) :: heapPop TimerEntry.lt (x :: rest) :=
          hpopperm.mem_iff.2 he
        rcases List.mem_cons.1 he2 with rfl | he3
        · exact List.mem_cons_self _ _
        · refine List.mem_cons_of_mem _ ?_
          refine ih _ now ?_ hpopheap e he3 hlt
          have := hpopperm.length_eq
          simp at this hlen
          omega
      · exfalso
        have := heapTop_min (x :: rest) hheap e he
        omega

/-- Building a heap with consecutive pushes yields a heap... -/
theorem foldl_heapPush_isHeap (ents : List TimerEntry) :
    ∀ acc, IsHeap TimerEntry.lt acc →
      IsHeap TimerEntry.lt (ents.foldl (heapPush TimerEntry.lt) acc) := by
  induction ents with
  | nil => intro acc h; exact h
  | cons x rest ih =>
    intro acc h
    exact ih (heapPush TimerEntry.lt acc x) (heapPush_isHeap acc x h)

/-- ... containing exactly the pushed entries. -/
theorem foldl_heapPush_perm (ents : List TimerEntry) :
    ∀ acc, (ents.foldl (heapPush TimerEntry.lt) acc).Perm (acc ++ ents) := by
  induction ents with
  | nil => intro acc; simp
  | cons x rest ih =>
    intro acc
    have h1 := ih (heapPush TimerEntry.lt acc x)
    have h2 : (heapPush TimerEntry.lt acc x ++ rest).Perm ((x :: acc) ++ rest) :=
      (heapPush_perm acc x).append_right rest
    have h3 : ((x :: acc) ++ rest).Perm (acc ++ x :: rest) := by
      show (x :: (acc ++ rest)).Perm (acc ++ x :: rest)
      exact List.perm_middle.symm
    exact (h1.trans h2).trans h3

/-- The empty vector is a heap. -/
theorem isHeap_nil : IsHeap TimerEntry.lt [] := by
  intro i h1 h2
  simp at h2

/-- Every entry the drain resumes came from the heap. -/
theorem loopDrainTimersF_subset :
    ∀ (fuel : Nat) (a : List TimerEntry) (now : Nat), IsHeap TimerEntry.lt a →
      ∀ e ∈ loopDrainTimersF now fuel a, e ∈ a := by
  intro fuel
  induction fuel with
  | zero => intro a now _ e he; simp [loopDrainTimersF] at he
  | succ fuel ih =>
    intro a now hheap e he
    cases a with
    | nil => simp [loopDrainTimersF] at he
    | cons x rest =>
      obtain ⟨hpopheap, hpopperm⟩ := heapPop_spec (x :: rest) hheap (by simp)
      by_cases hcond : (heapTop (x :: rest)).expireTime < now
      · rw [show loopDrainTimersF now (fuel + 1) (x :: rest) =
            heapTop (x :: rest) :: loopDrainTimersF now fuel
              (heapPop TimerEntry.lt (x :: rest)) from by
          simp [loopDrainTimersF, hcond]] at he
        rcases List.mem_cons.1 he with rfl | he2
        · exact hpopperm.mem_iff.1 (List.mem_cons_self _ _)
        · exact hpopperm.mem_iff.1
            (List.mem_cons_of_mem _ (ih _ now hpopheap e he2))
      · rw [show loopDrainTimersF now (fuel + 1) (x :: rest) = [] from by
          simp [loopDrainTimersF, hcond]] at he
        simp at he

end Step6

/-! ### Multimap lemmas (for the `std::multimap` timer tree of stepHX) -/

namespace StepHX

/-- A multimap insertion adds exactly the new pair (as a multiset). -/
theorem multimapInsert_perm (l : List (Nat × Nat)) (e : Nat × Nat) :
    (multimapInsert l e).Perm (e :: l) := by
  induction l with
  | nil => exact List.Perm.refl _
  | cons x xs ih =>
    show (if e.1 < x.1 then e :: x :: xs else x :: multimapInsert xs e).Perm (e :: x :: xs)
    by_cases h : e.1 < x.1
    · rw [if_pos h]
    · rw [if_neg h]
      exact (List.Perm.cons x ih).trans (List.Perm.swap e x xs)

/-- Multimap insertion keeps the association list sorted by key. -/
theorem multimapInsert_sorted (l : List (Nat × Nat)) (e : Nat × Nat)
    (h : l.Pairwise (fun a b => a.1 ≤ b.1)) :
    (multimapInsert l e).Pairwise (fun a b => a.1 ≤ b.1) := by
  induction l with
  | nil => simp [multimapInsert]
  | cons x xs ih =>
    rw [List.pairwise_cons] at h
    obtain ⟨hx, hxs⟩ := h
    show (if e.1 < x.1 then e :: x :: xs else x :: multimapInsert xs e).Pairwise _
    by_cases hc : e.1 < x.1
    · rw [if_pos hc, List.pairwise_cons]
      constructor
      · intro y hy
        rcases List.mem_cons.1 hy with rfl | hy2
        · omega
        · have := hx y hy2
          omega
      · exact List.pairwise_cons.2 ⟨hx, hxs⟩
    · rw [if_neg hc, List.pairwise_cons]
      constructor
      · intro y hy
        rcases List.mem_cons.1 ((multimapInsert_perm xs e).mem_iff.1 hy) with rfl | hy2
        · omega
        · exact hx y hy2
      · exact ih hxs

/-- Multimap insertion puts the new pair after every stored pair with the
same key: the entries at any fixed key, read in map order, are the entries
inserted at that key in insertion order. -/
theorem multimapInsert_filter (l : List (Nat × Nat)) (e : Nat × Nat) (t : Nat)
    (hsorted : l.Pairwise (fun a b => a.1 ≤ b.1)) :
    (multimapInsert l e).filter (fun p => p.1 == t)
      = if e.1 = t then l.filter (fun p => p.1 == t) ++ [e]
        else l.filter (fun p => p.1 == t) := by
  induction l with
  | nil =>
    by_cases he : e.1 = t <;> simp [multimapInsert, he]
  | cons x xs ih =>
    rw [List.pairwise_cons] at hsorted
    obtain ⟨hx, hxs⟩ := hsorted
    show (if e.1 < x.1 then e :: x :: xs else x :: multimapInsert xs e).filter _ = _
    by_cases hc : e.1 < x.1
    · rw [if_pos hc]
      by_cases he : e.1 = t
      · have hnil : (x :: xs).filter (fun p => p.1 == t) = [] := by
          rw [List.filter_eq_nil_iff]
          intro p hp
          rcases List.mem_cons.1 hp with rfl | hp2
          · simp
            omega
          · have := hx p hp2
            simp
            omega
        rw [if_pos he, hnil, List.filter_cons_of_pos (by simpa using he), hnil]
        rfl
      · rw [if_neg he]
        simp only [List.filter_cons]
        simp [he]
    · rw [if_neg hc]
      simp only [List.filter_cons]
      rw [ih hxs]
      by_cases he : e.1 = t <;> by_cases hxt : x.1 = t <;> simp [he, hxt]

/-- Building the map by consecutive insertions keeps it sorted... -/
theorem foldl_multimapInsert_sorted (ments : List (Nat × Nat)) :
    ∀ acc, acc.Pairwise (fun a b => a.1 ≤ b.1) →
      (ments.foldl multimapInsert acc).Pairwise (fun a b => a.1 ≤ b.1) := by
  induction ments with
  | nil => intro acc h; exact h
  | cons m rest ih =>
    intro acc h
    exact ih (multimapInsert acc m) (multimapInsert_sorted acc m h)

/-- ... containing exactly the inserted entries ... -/
theorem foldl_multimapInsert_perm (ments : List (Nat × Nat)) :
    ∀ acc, (ments.foldl multimapInsert acc).Perm (acc ++ ments) := by
  induction ments with
  | nil => intro acc; simp
  | cons m rest ih =>
    intro acc
    have h1 := ih (multimapInsert acc m)
    have h2 : (multimapInsert acc m ++ rest).Perm ((m :: acc) ++ rest) :=
      (multimapInsert_perm acc m).append_right rest
    have h3 : ((m :: acc) ++ rest).Perm (acc ++ m :: rest) := by
      show (m :: (acc ++ rest)).Perm (acc ++ m :: rest)
      exact List.perm_middle.symm
    exact (h1.trans h2).trans h3

/-- ... with equal keys in insertion order (FIFO among equal deadlines). -/
theorem foldl_multimapInsert_filter (ments : List (Nat × Nat)) (t : Nat) :
    ∀ acc, acc.Pairwise (fun a b => a.1 ≤ b.1) →
      (ments.foldl multimapInsert acc).filter (fun p => p.1 == t)
        = acc.filter (fun p => p.1 == t) ++ ments.filter (fun p => p.1 == t) := by
  induction ments with
  | nil => intro acc _; simp
  | cons m rest ih =>
    intro acc hs
    rw [List.foldl_cons, ih (multimapInsert acc m) (multimapInsert_sorted acc m hs),
      multimapInsert_filter acc m t hs, List.filter_cons]
    by_cases he : m.1 = t <;> simp [he]

/-- Soundness of the `TimerLoop::runAll` timer drain: resumed entries have
deadline at most `now`, and come from the map. -/
theorem runAllTimerPhase_spec (now : Nat) :
    ∀ l : List (Nat × Nat), ∀ p ∈ TimerLoop.runAllTimerPhase now l, p.1 ≤ now ∧ p ∈ l := by
  intro l
  induction l with
  | nil => intro p hp; simp [TimerLoop.runAllTimerPhase] at hp
  | cons x rest ih =>
    intro p hp
    show p.1 ≤ now ∧ p ∈ x :: rest
    by_cases hc : now ≥ x.1
    · rw [show TimerLoop.runAllTimerPhase now (x :: rest)
          = x :: TimerLoop.runAllTimerPhase now rest from by
        simp [TimerLoop.runAllTimerPhase, hc]] at hp
      rcases List.mem_cons.1 hp with rfl | hp2
      · exact ⟨hc, List.mem_cons_self _ _⟩
      · obtain ⟨h1, h2⟩ := ih p hp2
        exact ⟨h1, List.mem_cons_of_mem _ h2⟩
    · rw [show TimerLoop.runAllTimerPhase now (x :: rest) = [] from by
        simp [TimerLoop.runAllTimerPhase]; omega] at hp
      simp at hp

/-- Completeness of the `TimerLoop::runAll` timer drain on a sorted map:
every entry with deadline at most `now` (equality included) is resumed. -/
theorem runAllTimerPhase_complete (now : Nat) :
    ∀ l : List (Nat × Nat), l.Pairwise (fun a b => a.1 ≤ b.1) →
      ∀ p ∈ l, p.1 ≤ now → p ∈ TimerLoop.runAllTimerPhase now l := by
  intro l
  induction l with
  | nil => intro _ p hp; simp at hp
  | cons x rest ih =>
    intro hs p hp hple
    rw [List.pairwise_cons] at hs
    obtain ⟨hx, hrest⟩ := hs
    by_cases hc : now ≥ x.1
    · rw [show TimerLoop.runAllTimerPhase now (x :: rest)
          = x :: TimerLoop.runAllTimerPhase now rest from by
        simp [TimerLoop.runAllTimerPhase, hc]]
      rcases List.mem_cons.1 hp with rfl | hp2
      · exact List.mem_cons_self _ _
      · exact List.mem_cons_of_mem _ (ih hrest p hp2 hple)
    · exfalso
      rcases List.mem_cons.1 hp with rfl | hp2
      · omega
      · have := hx p hp2
        omega

/-- Soundness of the `TimerLoop::run` drain: resumed entries have deadline
strictly less than `now`, and come from the map. -/
theorem runTimerPhase_spec (now : Nat) :
    ∀ l : List (Nat × Nat), ∀ p ∈ TimerLoop.runTimerPhase now l, p.1 < now ∧ p ∈ l := by
  intro l
  induction l with
  | nil => intro p hp; simp [TimerLoop.runTimerPhase] at hp
  | cons x rest ih =>
    intro p hp
    show p.1 < now ∧ p ∈ x :: rest
    by_cases hc : x.1 < now
    · rw [show TimerLoop.runTimerPhase now (x :: rest)
          = x :: TimerLoop.runTimerPhase now rest from by
        simp [TimerLoop.runTimerPhase, hc]] at hp
      rcases List.mem_cons.1 hp with rfl | hp2
      · exact ⟨hc, List.mem_cons_self _ _⟩
      · obtain ⟨h1, h2⟩ := ih p hp2
        exact ⟨h1, List.mem_cons_of_mem _ h2⟩
    · rw [show TimerLoop.runTimerPhase now (x :: rest) = [] from by
        simp [TimerLoop.runTimerPhase, hc]] at hp
      simp at hp

/-- Completeness of the `TimerLoop::run` drain on a sorted map. -/
theorem runTimerPhase_complete (now : Nat) :
    ∀ l : List (Nat × Nat), l.Pairwise (fun a b => a.1 ≤ b.1) →
      ∀ p ∈ l, p.1 < now → p ∈ TimerLoop.runTimerPhase now l := by
  intro l
  induction l with
  | nil => intro _ p hp; simp at hp
  | cons x rest ih =>
    intro hs p hp hple
    rw [List.pairwise_cons] at hs
    obtain ⟨hx, hrest⟩ := hs
    by_cases hc : x.1 < now
    · rw [show TimerLoop.runTimerPhase now (x :: rest)
          = x :: TimerLoop.runTimerPhase now rest from by
        simp [TimerLoop.runTimerPhase, hc]]
      rcases List.mem_cons.1 hp with rfl | hp2
      · exact List.mem_cons_self _ _
      · exact List.mem_cons_of_mem _ (ih hrest p hp2 hple)
    · exfalso
      rcases List.mem_cons.1 hp with rfl | hp2
      · omega
      · have := hx p hp2
        omega

end StepHX

/-! ### Claim C4 (amended) and Claim C5 (amended) -/

/-- C4 amended: timers are resumed in deadline-ascending order in both
schedulers, and each scheduler resumes exactly the registered entries; but
only stepHX's `std::multimap` breaks ties by insertion order (its entries at
any fixed deadline appear in insertion order), while step6's
`std::priority_queue` delivers equal deadlines in heap order, which need not
be the insertion order (see the counterexample). -/
theorem c4_timer_order (ents : List Step6.TimerEntry) (ments : List (Nat × Nat)) :
    (Step6.heapPopAll Step6.TimerEntry.lt
        (ents.foldl (Step6.heapPush Step6.TimerEntry.lt) [])).Pairwise
      (fun x y => x.expireTime ≤ y.expireTime) ∧
    (Step6.heapPopAll Step6.TimerEntry.lt
        (ents.foldl (Step6.heapPush Step6.TimerEntry.lt) [])).Perm ents ∧
    (ments.foldl StepHX.multimapInsert []).Pairwise (fun a b => a.1 ≤ b.1) ∧
    (∀ t, (ments.foldl StepHX.multimapInsert []).filter (fun p => p.1 == t)
        = ments.filter (fun p => p.1 == t)) := by
  have hheap := Step6.foldl_heapPush_isHeap ents [] Step6.isHeap_nil
  have hperm := Step6.foldl_heapPush_perm ents []
  obtain ⟨hpa, hps⟩ := Step6.heapPopAllF_spec
    (ents.foldl (Step6.heapPush Step6.TimerEntry.lt) []).length
    (ents.foldl (Step6.heapPush Step6.TimerEntry.lt) []) (le_refl _) hheap
  refine ⟨hps, hpa.trans (by simpa using hperm), ?_, ?_⟩
  · exact StepHX.foldl_multimapInsert_sorted ments [] List.Pairwise.nil
  · intro t
    have := StepHX.foldl_multimapInsert_filter ments t [] List.Pairwise.nil
    simpa using this

/-- C5 amended: at a drain at instant `now`, step6's `Loop::runAll` and
stepHX's `TimerLoop::run` pop exactly the entries whose deadline is strictly
less than `now` (an entry whose deadline equals `now` waits), while stepHX's
`TimerLoop::runAll` pops exactly the entries with deadline less than or equal
to `now`. -/
theorem c5_drain_boundaries (ents : List Step6.TimerEntry)
    (ments : List (Nat × Nat)) (now : Nat) :
    (∀ e ∈ Step6.Loop.drainTimers now
        (ents.foldl (Step6.heapPush Step6.TimerEntry.lt) []),
      e.expireTime < now ∧ e ∈ ents) ∧
    (∀ e ∈ ents, e.expireTime < now →
      e ∈ Step6.Loop.drainTimers now
        (ents.foldl (Step6.heapPush Step6.TimerEntry.lt) [])) ∧
    (∀ p ∈ StepHX.TimerLoop.runAllTimerPhase now (ments.foldl StepHX.multimapInsert []),
      p.1 ≤ now ∧ p ∈ ments) ∧
    (∀ p ∈ ments, p.1 ≤ now →
      p ∈ StepHX.TimerLoop.runAllTimerPhase now (ments.foldl StepHX.multimapInsert [])) ∧
    (∀ p ∈ StepHX.TimerLoop.runTimerPhase now (ments.foldl StepHX.multimapInsert []),
      p.1 < now ∧ p ∈ ments) ∧
    (∀ p ∈ ments, p.1 < now →
      p ∈ StepHX.TimerLoop.runTimerPhase now (ments.foldl StepHX.multimapInsert [])) := by
  have hheap := Step6.foldl_heapPush_isHeap ents [] Step6.isHeap_nil
  have hperm : (ents.foldl (Step6.heapPush Step6.TimerEntry.lt) []).Perm ents := by
    simpa using Step6.foldl_heapPush_perm ents []
  have hms := StepHX.foldl_multimapInsert_sorted ments [] List.Pairwise.nil
  have hmp : (ments.foldl StepHX.multimapInsert []).Perm ments := by
    simpa using StepHX.foldl_multimapInsert_perm ments []
  refine ⟨?_, ?_, ?_, ?_, ?_, ?_⟩
  · intro e he
    refine ⟨Step6.loopDrainTimersF_sound _ _ now e he, ?_⟩
    exact hperm.mem_iff.1 (Step6.loopDrainTimersF_subset _ _ now hheap e he)
  · intro e he hlt
    exact Step6.loopDrainTimersF_complete _ _ now (le_refl _) hheap e
      (hperm.mem_iff.2 he) hlt
  · intro p hp
    obtain ⟨h1, h2⟩ := StepHX.runAllTimerPhase_spec now _ p hp
    exact ⟨h1, hmp.mem_iff.1 h2⟩
  · intro p hp hple
    exact StepHX.runAllTimerPhase_complete now _ hms p (hmp.mem_iff.2 hp) hple
  · intro p hp
    obtain ⟨h1, h2⟩ := StepHX.runTimerPhase_spec now _ p hp
    exact ⟨h1, hmp.mem_iff.1 h2⟩
  · intro p hp hple
    exact StepHX.runTimerPhase_complete now _ hms p (hmp.mem_iff.2 hp) hple

/-- Witness for the amended C5 theorem at a concrete input: with timers at
3, 5 and 7 and a drain at `now = 6`, the entry with deadline 3 is resumed by
step6's drain. -/
theorem c5_drain_boundaries_witness :
    (⟨3, 2⟩ : Step6.TimerEntry) ∈ Step6.Loop.drainTimers 6
      (([⟨3, 2⟩, ⟨5, 0⟩, ⟨7, 1⟩] : List Step6.TimerEntry).foldl
        (Step6.heapPush Step6.TimerEntry.lt) []) :=
  (c5_drain_boundaries [⟨3, 2⟩, ⟨5, 0⟩, ⟨7, 1⟩] [] 6).2.1 ⟨3, 2⟩ (by decide) (by decide)

/-! ### Combinator run lemmas -/

namespace Step6

variable {E V : Type}

theorem helperReadyOrder_eq (n : Nat) :
    helperReadyOrder n = ((List.range n).drop 1).reverse := by
  show Step6.readyPhaseOrder (Loop.addTasks ⟨[], []⟩ ((List.range n).drop 1)).mReadyQueue = _
  rw [loop_addTasks_queue]
  simp [readyPhaseOrder_eq]

theorem allStartHelper_eq (spec : Nat → ChildBehavior E V) (i : Nat)
    (s : WhenAllRunState E V) :
    allStartHelper spec i s
      = if (spec i).isImmediate then whenAllHelperComplete i (spec i).outcome s else s := by
  cases h : spec i <;>
    simp [allStartHelper, ChildBehavior.isImmediate, ChildBehavior.outcome, h]

theorem foldl_allStartHelper (spec : Nat → ChildBehavior E V) (L : List Nat) :
    ∀ s : WhenAllRunState E V,
      L.foldl (fun s i => allStartHelper spec i s) s
        = (L.filter fun i => (spec i).isImmediate).foldl
            (fun s i => whenAllHelperComplete i (spec i).outcome s) s := by
  induction L with
  | nil => intro s; rfl
  | cons x rest ih =>
    intro s
    rw [List.foldl_cons, List.filter_cons]
    by_cases h : (spec x).isImmediate
    · rw [if_pos h, List.foldl_cons, allStartHelper_eq, if_pos h]
      exact ih _
    · rw [if_neg h, allStartHelper_eq, if_neg h]
      exact ih s

/-- A `when_all` run is a fold of helper-completion steps over the child
completion order. -/
theorem whenAllRun_eq_foldl (n : Nat) (spec : Nat → ChildBehavior E V) (wakes : List Nat) :
    whenAllRun n spec wakes
      = (completionSeq n spec wakes).foldl
          (fun s i => whenAllHelperComplete i (spec i).outcome s)
          ⟨⟨n, some parentHandle, none⟩, List.replicate n none, []⟩ := by
  show (wakes.foldl _ ((helperReadyOrder n).foldl _ (allStartHelper spec 0 _))) = _
  rw [completionSeq, List.foldl_append]
  congr 1
  have h := foldl_allStartHelper spec (0 :: helperReadyOrder n)
    ⟨⟨n, some parentHandle, none⟩, List.replicate n none, []⟩
  rw [List.foldl_cons] at h
  exact h

theorem allResumeParent_trace (s : WhenAllRunState E V) :
    ∃ d, (allResumeParent s).trace = s.trace ++ d := by
  rcases hp : s.control.mPrevious with _ | h
  · exact ⟨[], by simp [allResumeParent, hp]⟩
  · exact ⟨[.parentResumed s.control.mException], by simp [allResumeParent, hp]⟩

theorem whenAllHelperComplete_trace (i : Nat) (r : Except E V) (s : WhenAllRunState E V) :
    ∃ d, (whenAllHelperComplete i r s).trace = s.trace ++ d := by
  cases r with
  | error e =>
    obtain ⟨d, hd⟩ := allResumeParent_trace
      (E := E) (V := V)
      { trace := s.trace ++ [AllEvent.childFinalized i],
        results := s.results,
        control := { s.control with mException := some e } }
    exact ⟨[AllEvent.childFinalized i] ++ d, by
      show (allResumeParent _).trace = _
      rw [hd, List.append_assoc]⟩
  | ok v =>
    have hstep : whenAllHelperComplete i (Except.ok v) s =
        (if ((s.control.mCount - 1 == 0) : Bool) then
          allResumeParent
            { control := { s.control with mCount := s.control.mCount - 1 },
              results := s.results.set i (some v),
              trace := s.trace ++ [AllEvent.childFinalized i] }
        else
          { control := { s.control with mCount := s.control.mCount - 1 },
            results := s.results.set i (some v),
            trace := s.trace ++ [AllEvent.childFinalized i] }) := rfl
    rw [hstep]
    by_cases hc : ((s.control.mCount - 1 == 0) : Bool)
    · rw [if_pos hc]
      obtain ⟨d, hd⟩ := allResumeParent_trace
        (E := E) (V := V)
        { control := { s.control with mCount := s.control.mCount - 1 },
          results := s.results.set i (some v),
          trace := s.trace ++ [AllEvent.childFinalized i] }
      exact ⟨[AllEvent.childFinalized i] ++ d, by rw [hd, List.append_assoc]⟩
    · rw [if_neg hc]
      exact ⟨[AllEvent.childFinalized i], rfl⟩

theorem foldl_allStep_trace (spec : Nat → ChildBehavior E V) (L : List Nat) :
    ∀ s : WhenAllRunState E V,
      ∃ d, (L.foldl (fun s i => whenAllHelperComplete i (spec i).outcome s) s).trace
        = s.trace ++ d := by
  induction L with
  | nil => intro s; exact ⟨[], by simp⟩
  | cons x rest ih =>
    intro s
    obtain ⟨d1, hd1⟩ := whenAllHelperComplete_trace x (spec x).outcome s
    obtain ⟨d2, hd2⟩ := ih (whenAllHelperComplete x (spec x).outcome s)
    exact ⟨d1 ++ d2, by rw [List.foldl_cons, hd2, hd1, List.append_assoc]⟩

/-- Folding helper completions of children that all succeed: each one
finalizes, stores its result, decrements the count without reaching zero, and
does not resume the parent or touch the exception slot. -/
theorem foldl_allStep_ok (spec : Nat → ChildBehavior E V) :
    ∀ (pre : List Nat) (s : WhenAllRunState E V),
      (∀ i ∈ pre, ∃ v, (spec i).outcome = Except.ok v) →
      pre.length < s.control.mCount →
      (pre.foldl (fun s i => whenAllHelperComplete i (spec i).outcome s) s).trace
          = s.trace ++ pre.map AllEvent.childFinalized ∧
      (pre.foldl (fun s i => whenAllHelperComplete i (spec i).outcome s) s).control.mException
          = s.control.mException ∧
      (pre.foldl (fun s i => whenAllHelperComplete i (spec i).outcome s) s).control.mCount
          = s.control.mCount - pre.length ∧
      (pre.foldl (fun s i => whenAllHelperComplete i (spec i).outcome s) s).control.mPrevious
          = s.control.mPrevious := by
  intro pre
  induction pre with
  | nil => intro s _ _; exact ⟨by simp, rfl, by simp, rfl⟩
  | cons j rest ih =>
    intro s hok hcount
    obtain ⟨v, hv⟩ := hok j (List.mem_cons_self _ _)
    have hlen : rest.length + 1 < s.control.mCount := by
      simpa using hcount
    have hc0 : ¬ ((s.control.mCount - 1 == 0) : Bool) := by
      simp only [beq_iff_eq]
      omega
    have hseed : whenAllHelperComplete j (spec j).outcome s =
        { control := { s.control with mCount := s.control.mCount - 1 },
          results := s.results.set j (some v),
          trace := s.trace ++ [AllEvent.childFinalized j] } := by
      rw [hv]
      show (if ((s.control.mCount - 1 == 0) : Bool) then _ else _) = _
      rw [if_neg hc0]
    rw [List.foldl_cons, hseed]
    obtain ⟨ht, he, hc, hp⟩ := ih
      { control := { s.control with mCount := s.control.mCount - 1 },
        results := s.results.set j (some v),
        trace := s.trace ++ [AllEvent.childFinalized j] }
      (fun i hi => hok i (List.mem_cons_of_mem _ hi)) (by simp; omega)
    refine ⟨?_, he, ?_, hp⟩
    · rw [ht]
      simp
    · rw [hc]
      simp
      omega

/-- Helper completion of a child that throws: the child finalizes, the
exception is stored, and the parent is immediately resumed with it. -/
theorem whenAllHelperComplete_error (j : Nat) (e : E) (s : WhenAllRunState E V)
    (ph : Nat) (hprev : s.control.mPrevious = some ph) :
    (whenAllHelperComplete j (Except.error e) s).trace
      = s.trace ++ [AllEvent.childFinalized j, AllEvent.parentResumed (some e)] := by
  show (allResumeParent _).trace = _
  rw [allResumeParent]
  simp [hprev]

end Step6

/-! ### Claim C2 (amended) -/

/-- C2 amended: in an `all` combinator run in which some child throws, the
first exception is stored in the shared control block, but the combinator
does NOT wait for the remaining children: the parent is resumed, with that
first exception, immediately after the first throwing child finalizes —
children that complete later (`post`) finalize only after the parent has
already been resumed and the exception re-raised. -/
theorem c2_all_first_error_resumes_parent_immediately {E V : Type}
    (n : Nat) (spec : Nat → Step6.ChildBehavior E V) (wakes : List Nat)
    (pre post : List Nat) (j : Nat) (e : E)
    (hseq : Step6.completionSeq n spec wakes = pre ++ j :: post)
    (hok : ∀ i ∈ pre, ∃ v, (spec i).outcome = Except.ok v)
    (herr : (spec j).outcome = Except.error e)
    (hlen : pre.length < n) :
    ∃ rest,
      (Step6.whenAllRun n spec wakes).trace
        = pre.map Step6.AllEvent.childFinalized
          ++ [Step6.AllEvent.childFinalized j, Step6.AllEvent.parentResumed (some e)]
          ++ rest := by
  rw [Step6.whenAllRun_eq_foldl, hseq, List.foldl_append, List.foldl_cons]
  set init : Step6.WhenAllRunState E V :=
    ⟨⟨n, some Step6.parentHandle, none⟩, List.replicate n none, []⟩ with hinit
  obtain ⟨ht, he, hc, hp⟩ := Step6.foldl_allStep_ok spec pre init hok (by simpa [hinit])
  set s1 := pre.foldl (fun s i => Step6.whenAllHelperComplete i (spec i).outcome s) init
    with hs1
  have hs1prev : s1.control.mPrevious = some Step6.parentHandle := by
    rw [hp]
  have herrstep := Step6.whenAllHelperComplete_error j e s1 Step6.parentHandle hs1prev
  obtain ⟨d, hd⟩ := Step6.foldl_allStep_trace spec post
    (Step6.whenAllHelperComplete j (Except.error e) s1)
  refine ⟨d, ?_⟩
  rw [herr, hd, herrstep, ht]
  show ([] : List (Step6.AllEvent E)) ++ _ ++ _ ++ _ = _
  simp

/-- Witness for the amended C2 theorem at a concrete input (two children,
the first throws immediately, the second is parked on a timer). -/
theorem c2_all_first_error_witness :
    ∃ rest,
      (Step6.whenAllRun 2
          (fun i => if i = 0 then .immediate (.error 9) else .deferred (.ok 7)) [1]).trace
        = ([] : List Nat).map Step6.AllEvent.childFinalized
          ++ [Step6.AllEvent.childFinalized 0, Step6.AllEvent.parentResumed (some 9)]
          ++ rest :=
  c2_all_first_error_resumes_parent_immediately 2
    (fun i => if i = 0 then .immediate (.error 9) else .deferred (.ok 7)) [1]
    [] [1] 0 9 (by decide)
    (by intro i hi; exact absurd hi (List.not_mem_nil i))
    rfl (by decide)

/-! ### When-any run lemmas -/

namespace Step6

theorem getD_set_self_of_lt {α : Type} (l : List α) (k : Nat) (x d : α)
    (hk : k < l.length) : (l.set k x).getD k d = x := by
  rw [List.getD_eq_getElem?_getD, List.getElem?_set_eq_of_lt x hk]
  rfl

theorem anyStartHelper_eq (spec : Nat → ChildBehavior E V) (i : Nat)
    (s : WhenAnyRunState E V) :
    anyStartHelper spec i s
      = if (spec i).isImmediate then whenAnyHelperComplete i (spec i).outcome s else s := by
  cases h : spec i <;>
    simp [anyStartHelper, ChildBehavior.isImmediate, ChildBehavior.outcome, h]

theorem foldl_anyStartHelper (spec : Nat → ChildBehavior E V) (L : List Nat) :
    ∀ s : WhenAnyRunState E V,
      L.foldl (fun s i => anyStartHelper spec i s) s
        = (L.filter fun i => (spec i).isImmediate).foldl
            (fun s i => whenAnyHelperComplete i (spec i).outcome s) s := by
  induction L with
  | nil => intro s; rfl
  | cons x rest ih =>
    intro s
    rw [List.foldl_cons, List.filter_cons]
    by_cases h : (spec x).isImmediate
    · rw [if_pos h, List.foldl_cons, anyStartHelper_eq, if_pos h]
      exact ih _
    · rw [if_neg h, anyStartHelper_eq, if_neg h]
      exact ih s

/-- A `when_any` run is a fold of helper-completion steps over the child
completion order. -/
theorem whenAnyRun_eq_foldl (n : Nat) (spec : Nat → ChildBehavior E V) (wakes : List Nat) :
    whenAnyRun n spec wakes
      = (completionSeq n spec wakes).foldl
          (fun s i => whenAnyHelperComplete i (spec i).outcome s)
          ⟨⟨kNullIndex, some parentHandle, none⟩, List.replicate n none, [], []⟩ := by
  show (wakes.foldl _ ((helperReadyOrder n).foldl _ (anyStartHelper spec 0 _))) = _
  rw [completionSeq, List.foldl_append]
  congr 1
  have h := foldl_anyStartHelper spec (0 :: helperReadyOrder n)
    ⟨⟨kNullIndex, some parentHandle, none⟩, List.replicate n none, [], []⟩
  rw [List.foldl_cons] at h
  exact h

theorem anyResumeParent_trace (s : WhenAnyRunState E V) :
    ∃ d, (anyResumeParent s).trace = s.trace ++ d := by
  rcases hp : s.control.mPrevious with _ | h
  · exact ⟨[], by simp [anyResumeParent, hp]⟩
  · exact ⟨[AnyEvent.parentResumed s.control.mException s.control.mIndex
      (s.results.getD s.control.mIndex none)], by simp [anyResumeParent, hp]⟩

theorem whenAnyHelperComplete_trace (i : Nat) (r : Except E V) (s : WhenAnyRunState E V) :
    ∃ d, (whenAnyHelperComplete i r s).trace = s.trace ++ d := by
  cases r with
  | error e =>
    obtain ⟨d, hd⟩ := anyResumeParent_trace
      (E := E) (V := V)
      { control := { s.control with mException := some e },
        results := s.results,
        indexWrites := s.indexWrites,
        trace := s.trace ++ [AnyEvent.childFinalized i] }
    exact ⟨[AnyEvent.childFinalized i] ++ d, by
      show (anyResumeParent _).trace = _
      rw [hd, List.append_assoc]⟩
  | ok v =>
    obtain ⟨d, hd⟩ := anyResumeParent_trace
      (E := E) (V := V)
      { control := { s.control with mIndex := i },
        results := s.results.set i (some v),
        indexWrites := s.indexWrites ++ [i],
        trace := s.trace ++ [AnyEvent.childFinalized i] }
    exact ⟨[AnyEvent.childFinalized i] ++ d, by
      show (anyResumeParent _).trace = _
      rw [hd, List.append_assoc]⟩

theorem foldl_anyStep_trace (spec : Nat → ChildBehavior E V) (L : List Nat) :
    ∀ s : WhenAnyRunState E V,
      ∃ d, (L.foldl (fun s i => whenAnyHelperComplete i (spec i).outcome s) s).trace
        = s.trace ++ d := by
  induction L with
  | nil => intro s; exact ⟨[], by simp⟩
  | cons x rest ih =>
    intro s
    obtain ⟨d1, hd1⟩ := whenAnyHelperComplete_trace x (spec x).outcome s
    obtain ⟨d2, hd2⟩ := ih (whenAnyHelperComplete x (spec x).outcome s)
    exact ⟨d1 ++ d2, by rw [List.foldl_cons, hd2, hd1, List.append_assoc]⟩

/-- Helper completion of a successfully completing `when_any` child: the
child finalizes, its value and index are stored, and the parent is resumed
at once reading exactly that index and value (no exception). -/
theorem whenAnyHelperComplete_ok (k : Nat) (v : V) (s : WhenAnyRunState E V)
    (ph : Nat) (hprev : s.control.mPrevious = some ph)
    (hexc : s.control.mException = none)
    (hk : k < s.results.length) :
    (whenAnyHelperComplete k (Except.ok v) s).trace
      = s.trace ++ [AnyEvent.childFinalized k,
          AnyEvent.parentResumed none k (some v)] := by
  show (anyResumeParent
    { control := { s.control with mIndex := k },
      results := s.results.set k (some v),
      indexWrites := s.indexWrites ++ [k],
      trace := s.trace ++ [AnyEvent.childFinalized k] }).trace = _
  rw [anyResumeParent]
  simp [hprev, hexc, List.getElem?_set_eq_of_lt (some v) hk]

theorem anyResumeParent_indexWrites (s : WhenAnyRunState E V) :
    (anyResumeParent s).indexWrites = s.indexWrites := by
  rcases hp : s.control.mPrevious with _ | h <;> simp [anyResumeParent, hp]

/-- Each helper completion writes the winning-index slot exactly when its
child succeeded. -/
theorem whenAnyHelperComplete_indexWrites (i : Nat) (r : Except E V)
    (s : WhenAnyRunState E V) :
    (whenAnyHelperComplete i r s).indexWrites
      = s.indexWrites ++ (match r with | .ok _ => [i] | .error _ => []) := by
  cases r with
  | error e =>
    show (anyResumeParent _).indexWrites = _
    rw [anyResumeParent_indexWrites]
    simp
  | ok v =>
    show (anyResumeParent _).indexWrites = _
    rw [anyResumeParent_indexWrites]

theorem foldl_anyStep_indexWrites (spec : Nat → ChildBehavior E V) (L : List Nat) :
    ∀ s : WhenAnyRunState E V,
      (L.foldl (fun s i => whenAnyHelperComplete i (spec i).outcome s) s).indexWrites
        = s.indexWrites ++ L.filter (fun i => (spec i).succeeds) := by
  induction L with
  | nil => intro s; simp
  | cons x rest ih =>
    intro s
    rw [List.foldl_cons, ih (whenAnyHelperComplete x (spec x).outcome s),
      whenAnyHelperComplete_indexWrites, List.filter_cons]
    cases houtcome : (spec x).outcome with
    | ok v =>
      have hs : (spec x).succeeds = true := by
        simp [ChildBehavior.succeeds, houtcome]
      rw [hs]
      simp
    | error e =>
      have hs : ¬ ((spec x).succeeds = true) := by
        simp [ChildBehavior.succeeds, houtcome]
      rw [if_neg hs]
      simp

end Step6

/-! ### Claim C7 -/

/-- C7: when the first child of `when_any` to complete does so successfully
(child `k` with value `v`), the combinator's parent is resumed immediately
after `k` finalizes — before any other child finalizes — and the snapshot it
reads to build its result is exactly index `k` with value `v` (and no
exception): the combinator completes as soon as the first child completes
successfully, with a tagged union holding that child's value at that child's
positional index. -/
theorem c7_any_completes_on_first_success {E V : Type}
    (n : Nat) (spec : Nat → Step6.ChildBehavior E V) (wakes : List Nat)
    (k : Nat) (v : V) (rest0 : List Nat)
    (hseq : Step6.completionSeq n spec wakes = k :: rest0)
    (hk : (spec k).outcome = Except.ok v)
    (hkn : k < n) :
    ∃ rest,
      (Step6.whenAnyRun n spec wakes).trace
        = Step6.AnyEvent.childFinalized k
          :: Step6.AnyEvent.parentResumed none k (some v) :: rest := by
  rw [Step6.whenAnyRun_eq_foldl, hseq, List.foldl_cons]
  set init : Step6.WhenAnyRunState E V :=
    ⟨⟨Step6.kNullIndex, some Step6.parentHandle, none⟩, List.replicate n none, [], []⟩
    with hinit
  have hkstep := Step6.whenAnyHelperComplete_ok k v init Step6.parentHandle rfl rfl
    (by simp [hinit]; omega)
  obtain ⟨d, hd⟩ := Step6.foldl_anyStep_trace spec rest0
    (Step6.whenAnyHelperComplete k (Except.ok v) init)
  refine ⟨d, ?_⟩
  rw [hk, hd, hkstep]
  show ([] : List (Step6.AnyEvent E V)) ++ _ ++ _ = _
  simp

/-- Witness for C7 at a concrete input: three children, all parked; child 1
wakes first with value 42, so the parent resumes at once with the variant
⟨index 1, 42⟩. -/
theorem c7_any_completes_witness :
    ∃ rest,
      (Step6.whenAnyRun 3
          (fun i => if i = 1 then .deferred (.ok 42) else .deferred (.error 5))
          [1, 0, 2]).trace
        = Step6.AnyEvent.childFinalized 1
          :: Step6.AnyEvent.parentResumed none 1 (some 42) :: rest :=
  c7_any_completes_on_first_success 3
    (fun i => if i = 1 then .deferred (.ok 42) else .deferred (.error 5))
    [1, 0, 2] 1 42 [0, 2] (by decide) rfl (by decide)

/-! ### Claim C8 (amended) -/

/-- C8 amended: over a whole `when_any` run the winning-index slot is written
once per successfully completing child, in completion order — so the winner's
write happens first, and losing children that complete successfully after the
winner overwrite the slot (it is written exactly once only when exactly one
child completes successfully). -/
theorem c8_any_index_written_per_success {E V : Type}
    (n : Nat) (spec : Nat → Step6.ChildBehavior E V) (wakes : List Nat) :
    (Step6.whenAnyRun n spec wakes).indexWrites
      = (Step6.completionSeq n spec wakes).filter (fun i => (spec i).succeeds) := by
  rw [Step6.whenAnyRun_eq_foldl, Step6.foldl_anyStep_indexWrites]
  simp

/-! ### Claim C1 -/

/-- C1: for a task `T` awaiting a task `T'`, `Task::Awaiter::await_suspend`
installs `T`'s handle as `T'`'s continuation link `mPrevious` and returns
`T'`'s own handle (symmetric transfer directly into `T'`), leaving the
scheduler's ready queue untouched; at `T'`'s final suspension,
`PreviousAwaiter` transfers control to the stored continuation when one is
present and to `std::noop_coroutine()` (the executor) otherwise — in neither
direction does control pass through the ready queue. -/
theorem c1_await_installs_link_and_transfers :
    ∀ (parent child : Nat) (s : Step6.AwaitStep Nat Nat),
      (Step6.taskAwaiterAwaitSuspend child parent s).1.promise.mPrevious = some parent ∧
      (Step6.taskAwaiterAwaitSuspend child parent s).2 = .transfer child ∧
      (Step6.taskAwaiterAwaitSuspend child parent s).1.loop.mReadyQueue
        = s.loop.mReadyQueue ∧
      (∀ (exc res : Option Nat),
        Step6.Promise.finalSuspendResumption ⟨some parent, exc, res⟩ = .transfer parent) ∧
      (∀ (exc res : Option Nat),
        Step6.Promise.finalSuspendResumption ⟨none, exc, res⟩ = .noop) :=
  fun _parent _child _s => ⟨rfl, rfl, rfl, fun _ _ => rfl, fun _ _ => rfl⟩

/-! ### Claim C2 (counterexample) -/

/-- C2 counterexample: in `when_all` over two children where child 0 throws
immediately and child 1 is still parked on a timer, the combinator's parent is
resumed (with the stored exception) strictly before child 1 finalizes — the
combinator does not wait for the other child, contradicting the claim. -/
theorem c2_counterexample :
    (Step6.whenAllRun 2
        (fun i => if i = 0 then .immediate (.error 9) else .deferred (.ok 7)) [1]).trace
      = [.childFinalized 0, .parentResumed (some 9), .childFinalized 1] ∧
    Step6.AllEvent.parentResumed (some 9) ∈
      (Step6.whenAllRun 2
        (fun i => if i = 0 then .immediate (.error 9) else .deferred (.ok 7)) [1]).trace ∧
    Step6.AllEvent.childFinalized 1 ∈
      (Step6.whenAllRun 2
        (fun i => if i = 0 then .immediate (.error 9) else .deferred (.ok 7)) [1]).trace ∧
    ((Step6.whenAllRun 2
        (fun i => if i = 0 then .immediate (.error 9) else .deferred (.ok 7)) [1]).trace.indexOf
        (Step6.AllEvent.parentResumed (some 9)) <
      (Step6.whenAllRun 2
        (fun i => if i = 0 then .immediate (.error 9) else .deferred (.ok 7)) [1]).trace.indexOf
        (Step6.AllEvent.childFinalized 1)) := by
  decide

/-! ### Claim C3 -/

/-- C3 counterexample: enqueueing resumers 10 then 11 with step6's
`Loop::addTask` (a `push_front`) makes `Loop::runAll` resume 11 first — the
batch runs in the reverse of its enqueue order, not FIFO. -/
theorem c3_counterexample :
    (Step6.Loop.addTasks ⟨[], []⟩ [10, 11]).readyResumeOrder = [11, 10] ∧
    (Step6.Loop.addTasks ⟨[], []⟩ [10, 11]).readyResumeOrder ≠ [10, 11] := by
  decide

/-- C3 amended: for every sequence of resumers enqueued via `addTask` with no
other pending work, stepHX's `TimerLoop` (a `std::queue`) resumes them in
FIFO order, whereas step5/step6's `Loop` pushes each resumer to the front of
the deque `runAll` pops from the front, so it resumes the batch in reverse
(LIFO) order. -/
theorem c3_ready_queue_order (hs : List Nat) :
    (Step6.Loop.addTasks ⟨[], []⟩ hs).readyResumeOrder = hs.reverse ∧
    (StepHX.TimerLoop.addTasks ⟨[], []⟩ hs).taskResumeOrder = hs := by
  constructor
  · show Step6.readyPhaseOrder (Step6.Loop.addTasks ⟨[], []⟩ hs).mReadyQueue = _
    rw [loop_addTasks_queue]
    simp [readyPhaseOrder_eq]
  · show StepHX.taskPhaseOrder (StepHX.TimerLoop.addTasks ⟨[], []⟩ hs).taskQueue = _
    rw [timerLoop_addTasks_queue]
    simp [taskPhaseOrder_eq]

/-! ### Claim C4 (counterexample) -/

/-- C4 counterexample: four timers with the same deadline 5, registered with
`Loop::addTimer` in handle order 0, 1, 2, 3, are delivered by the
`std::priority_queue` in order 0, 2, 1, 3 — equal deadlines are not resumed
in insertion (FIFO) order. -/
theorem c4_counterexample :
    ((Step6.heapPopAll Step6.TimerEntry.lt
        ([0, 1, 2, 3].foldl (fun l i => Step6.Loop.addTimer l 5 i) ⟨[], []⟩).mTimerHeap).map
      Step6.TimerEntry.coroutine) = [0, 2, 1, 3] ∧
    ([0, 2, 1, 3] : List Nat) ≠ [0, 1, 2, 3] := by
  decide

/-! ### Claim C5 (counterexample) -/

/-- C5 counterexample: a single timer with deadline 5 is in the heap, yet the
drain of `Loop::runAll` at `now = 5` resumes nothing, because the code pops
only when `timer.expireTime < nowTime` (strict): an entry whose deadline
equals `now` does not fire in that drain. -/
theorem c5_counterexample :
    (⟨5, 0⟩ : Step6.TimerEntry) ∈ (Step6.Loop.addTimer ⟨[], []⟩ 5 0).mTimerHeap ∧
    (5 : Nat) ≤ 5 ∧
    Step6.Loop.drainTimers 5 (Step6.Loop.addTimer ⟨[], []⟩ 5 0).mTimerHeap = [] := by
  decide

/-! ### Claim C6 -/

/-- C6: when a task body throws `e`, `Promise::unhandled_exception` captures
`e` into the promise's exception slot, the final suspension still transfers
control to the stored continuation, and `result()` (run by the awaiter's
`await_resume`) re-raises exactly `e`. -/
theorem c6_exception_capture_and_propagation :
    ∀ (h e : Nat),
      (Step6.Promise.unhandledException (V := Nat) ⟨some h, none, none⟩ e).mException
        = some e ∧
      (Step6.Promise.unhandledException (V := Nat) ⟨some h, none, none⟩ e).finalSuspendResumption
        = .transfer h ∧
      (Step6.Promise.unhandledException (V := Nat) ⟨some h, none, none⟩ e).result
        = some (.error e) :=
  fun _h _e => ⟨rfl, rfl, rfl⟩

/-! ### Claim C8 (counterexample) -/

/-- C8 counterexample: in `when_any` over two children that both complete
successfully, the winning-index slot `mIndex` is written twice over the whole
run (once by each helper), not exactly once. -/
theorem c8_counterexample :
    (Step6.whenAnyRun 2
        (fun i => Step6.ChildBehavior.immediate (Except.ok (10 + i)) :
          Nat → Step6.ChildBehavior Nat Nat) []).indexWrites = [0, 1] ∧
    (Step6.whenAnyRun 2
        (fun i => Step6.ChildBehavior.immediate (Except.ok (10 + i)) :
          Nat → Step6.ChildBehavior Nat Nat) []).indexWrites.length ≠ 1 := by
  decide

/-! ### Claim C9 -/

/-- C9: constructing a `Task` performs zero user-visible side effects — the
coroutine is suspended at its initial suspension point (`initial_suspend`
returns `std::suspend_always`, whose `await_ready` is false) with its entire
body pending, and the body's effects happen only at the first resumption. -/
theorem c9_task_construction_is_lazy :
    ∀ body : List Nat,
      (Step6.taskConstruct body).executedEffects = [] ∧
      (Step6.taskConstruct body).suspendedAtInitial = true ∧
      ((Step6.taskConstruct body).resumeFirst).executedEffects = body :=
  fun _body => ⟨rfl, rfl, rfl⟩

/-! ### AsyncFile ownership lemmas -/

namespace StepHX

theorem countP_set_add {α : Type} (l : List α) :
    ∀ (k : Nat) (x : α) (p : α → Bool) (hk : k < l.length),
      (l.set k x).countP p + (if p (l.get ⟨k, hk⟩) then 1 else 0)
        = l.countP p + (if p x then 1 else 0) := by
  induction l with
  | nil => intro k x p hk; simp at hk
  | cons y t ih =>
    intro k x p hk
    match k with
    | 0 =>
      show (x :: t).countP p + _ = (y :: t).countP p + _
      rw [List.countP_cons, List.countP_cons]
      have hgy : (y :: t).get ⟨0, hk⟩ = y := rfl
      rw [hgy]
      omega
    | m + 1 =>
      have hm : m < t.length := by simpa using hk
      show (y :: t.set m x).countP p + _ = (y :: t).countP p + _
      rw [List.countP_cons, List.countP_cons]
      have hih := ih m x p hm
      have hgy : (y :: t).get ⟨m + 1, hk⟩ = t.get ⟨m, hm⟩ := rfl
      rw [hgy]
      omega

theorem fdCount_set (hs : List (Option AsyncFile)) (k : Nat) (x : Option AsyncFile)
    (hk : k < hs.length) (f : Int) :
    fdCount (hs.set k x) f + (if fdMatch f (hs.get ⟨k, hk⟩) then 1 else 0)
      = fdCount hs f + (if fdMatch f x then 1 else 0) :=
  countP_set_add hs k x (fdMatch f) hk

theorem fdCount_append (hs l2 : List (Option AsyncFile)) (f : Int) :
    fdCount (hs ++ l2) f = fdCount hs f + fdCount l2 f :=
  List.countP_append _ _ _

theorem getD_some_lt {α : Type} (l : List (Option α)) (i : Nat) (a : α)
    (h : l.getD i none = some a) : i < l.length := by
  by_contra hcon
  rw [List.getD_eq_default _ _ (by omega)] at h
  exact Option.noConfusion h

theorem getD_some_get {α : Type} (l : List (Option α)) (i : Nat) (a : α)
    (h : l.getD i none = some a) (hi : i < l.length) : l.get ⟨i, hi⟩ = some a := by
  rw [List.getD_eq_getElem _ _ hi] at h
  rw [List.get_eq_getElem]
  exact h

theorem get_set_ne {α : Type} (l : List α) (i j : Nat) (x : α) (hj : j < l.length)
    (hne : i ≠ j) :
    (l.set i x).get ⟨j, by rw [List.length_set]; exact hj⟩ = l.get ⟨j, hj⟩ := by
  have h1 := List.getElem?_set_ne (l := l) (a := x) hne
  rw [List.getElem?_eq_getElem (by rw [List.length_set]; exact hj),
    List.getElem?_eq_getElem hj] at h1
  rw [List.get_eq_getElem, List.get_eq_getElem]
  exact Option.some.inj h1

/-- One handle holding descriptor `f` forces a positive live count of `f`. -/
theorem fdCount_pos (hs : List (Option AsyncFile)) (i : Nat) (a : AsyncFile)
    (hi : i < hs.length) (hget : hs.get ⟨i, hi⟩ = some a) (f : Int) (hf : a.fd = f) :
    0 < fdCount hs f := by
  rw [fdCount, List.countP_pos_iff]
  refine ⟨some a, ?_, by simp [fdMatch, hf]⟩
  rw [List.get_eq_getElem] at hget
  rw [← hget]
  exact List.getElem_mem hi

/-- `FileOp.apply` preserves the descriptor-ownership invariant. -/
theorem fileOp_apply_inv (s : FileSystemState) (op : FileOp) (h : FdInv s) :
    FdInv (FileOp.apply s op) := by
  obtain ⟨h1, fds, hnd, hzero, hev⟩ := h
  cases op with
  | moveConstructFrom src =>
    cases hsrc : s.handles.getD src none with
    | none =>
      simp only [FileOp.apply, hsrc]
      exact ⟨h1, fds, hnd, hzero, hev⟩
    | some fobj =>
      simp only [FileOp.apply, hsrc]
      have hlt := getD_some_lt _ _ _ hsrc
      have hget := getD_some_get _ _ _ hsrc hlt
      have hcount : ∀ f : Int, f ≠ -1 →
          fdCount ((s.handles.set src (some fobj.moveConstruct.2))
              ++ [some fobj.moveConstruct.1]) f
            = fdCount s.handles f := by
        intro f hf
        show fdCount ((s.handles.set src (some ⟨-1⟩)) ++ [some ⟨fobj.fd⟩]) f = _
        rw [fdCount_append]
        have hs2 := fdCount_set s.handles src (some ⟨-1⟩) hlt f
        rw [hget] at hs2
        have hm1 : fdMatch f (some (⟨-1⟩ : AsyncFile)) = false := by
          simp [fdMatch]
          omega
        have hone : fdCount [some (⟨fobj.fd⟩ : AsyncFile)] f
            = if fdMatch f (some fobj) then 1 else 0 := by
          by_cases hmf : fobj.fd = f <;> simp [fdCount, fdMatch, hmf]
        rw [hone]
        rw [hm1] at hs2
        simp at hs2
        omega
      refine ⟨fun f hf => by rw [hcount f hf]; exact h1 f hf, fds, hnd, ?_, hev⟩
      intro f hfmem
      obtain ⟨hfne, hfzero⟩ := hzero f hfmem
      exact ⟨hfne, by rw [hcount f hfne]; exact hfzero⟩
  | moveAssign dst src =>
    by_cases hds : dst = src
    · simp only [FileOp.apply, if_pos hds]
      exact ⟨h1, fds, hnd, hzero, hev⟩
    · cases hdst : s.handles.getD dst none with
      | none =>
        simp only [FileOp.apply, if_neg hds, hdst]
        exact ⟨h1, fds, hnd, hzero, hev⟩
      | some fdst =>
        cases hsrcv : s.handles.getD src none with
        | none =>
          simp only [FileOp.apply, if_neg hds, hdst, hsrcv]
          exact ⟨h1, fds, hnd, hzero, hev⟩
        | some fsrc =>
          simp only [FileOp.apply, if_neg hds, hdst, hsrcv]
          have hltd := getD_some_lt _ _ _ hdst
          have hlts := getD_some_lt _ _ _ hsrcv
          have hgetd := getD_some_get _ _ _ hdst hltd
          have hgets := getD_some_get _ _ _ hsrcv hlts
          have hcount : ∀ f : Int,
              fdCount ((s.handles.set dst (some (fdst.moveAssignSwap fsrc).1)).set src
                  (some (fdst.moveAssignSwap fsrc).2)) f
                = fdCount s.handles f := by
            intro f
            show fdCount ((s.handles.set dst (some ⟨fsrc.fd⟩)).set src (some ⟨fdst.fd⟩)) f = _
            have heq1 := fdCount_set s.handles dst (some ⟨fsrc.fd⟩) hltd f
            rw [hgetd] at heq1
            have hlts2 : src < (s.handles.set dst (some ⟨fsrc.fd⟩)).length := by
              rw [List.length_set]; exact hlts
            have heq2 := fdCount_set (s.handles.set dst (some ⟨fsrc.fd⟩)) src
              (some ⟨fdst.fd⟩) hlts2 f
            have hgs : (s.handles.set dst (some ⟨fsrc.fd⟩)).get ⟨src, hlts2⟩
                = some fsrc := by
              have := get_set_ne s.handles dst src (some ⟨fsrc.fd⟩) hlts hds
              rw [this, hgets]
            rw [hgs] at heq2
            simp only [fdMatch] at heq1 heq2
            omega
          refine ⟨fun f hf => by rw [hcount f]; exact h1 f hf, fds, hnd, ?_, hev⟩
          intro f hfmem
          obtain ⟨hfne, hfzero⟩ := hzero f hfmem
          exact ⟨hfne, by rw [hcount f]; exact hfzero⟩
  | destroy hid =>
    cases hh : s.handles.getD hid none with
    | none =>
      simp only [FileOp.apply, hh]
      exact ⟨h1, fds, hnd, hzero, hev⟩
    | some fobj =>
      simp only [FileOp.apply, hh]
      have hlt := getD_some_lt _ _ _ hh
      have hget := getD_some_get _ _ _ hh hlt
      have heqd : ∀ f : Int,
          fdCount (s.handles.set hid none) f + (if fdMatch f (some fobj) then 1 else 0)
            = fdCount s.handles f := by
        intro f
        have := fdCount_set s.handles hid none hlt f
        rw [hget] at this
        simpa [fdMatch] using this
      have hle : ∀ f : Int, fdCount (s.handles.set hid none) f ≤ fdCount s.handles f := by
        intro f
        have := heqd f
        omega
      by_cases hneg : fobj.fd = -1
      · have hdes : fobj.destroy = [] := by
          rw [AsyncFile.destroy, if_pos hneg]
        refine ⟨fun f hf => le_trans (hle f) (h1 f hf), fds, hnd, ?_, ?_⟩
        · intro f hfmem
          obtain ⟨hfne, hfzero⟩ := hzero f hfmem
          refine ⟨hfne, ?_⟩
          show fdCount (s.handles.set hid none) f = 0
          have := hle f
          omega
        · rw [hdes]
          simpa using hev
      · have hdes : fobj.destroy
            = [FdEvent.removeListener fobj.fd, FdEvent.closeFd fobj.fd] := by
          rw [AsyncFile.destroy, if_neg hneg]
        have hpos : 0 < fdCount s.handles fobj.fd :=
          fdCount_pos s.handles hid fobj hlt hget fobj.fd rfl
        have hnotin : fobj.fd ∉ fds := by
          intro hmem
          have := (hzero fobj.fd hmem).2
          omega
        refine ⟨fun f hf => le_trans (hle f) (h1 f hf), fds ++ [fobj.fd], ?_, ?_, ?_⟩
        · have hperm := List.perm_append_singleton fobj.fd fds
          rw [hperm.nodup_iff]
          rw [List.nodup_cons]
          exact ⟨hnotin, hnd⟩
        · intro f hfmem
          rcases List.mem_append.1 hfmem with hfm | hfm
          · obtain ⟨hfne, hfzero⟩ := hzero f hfm
            refine ⟨hfne, ?_⟩
            show fdCount (s.handles.set hid none) f = 0
            have := hle f
            omega
          · have hfe : f = fobj.fd := by simpa using hfm
            subst hfe
            refine ⟨hneg, ?_⟩
            show fdCount (s.handles.set hid none) fobj.fd = 0
            have hub := h1 fobj.fd hneg
            have := heqd fobj.fd
            simp [fdMatch] at this
            omega
        · rw [hdes, hev, List.flatMap_append]
          simp

/-- The initial handle collection satisfies the invariant when its live
descriptors are pairwise distinct. -/
theorem pairwise_countP_le_one (f : Int) (hf : f ≠ -1) :
    ∀ l : List Int, l.Pairwise (fun a b => a = b → a = -1) →
      l.countP (fun x => x == f) ≤ 1 := by
  intro l
  induction l with
  | nil => intro _; simp
  | cons x t ih =>
    intro hp
    rw [List.pairwise_cons] at hp
    obtain ⟨hx, ht⟩ := hp
    rw [List.countP_cons]
    by_cases hxf : x = f
    · subst hxf
      have hzero : t.countP (fun y => y == x) = 0 := by
        rw [List.countP_eq_zero]
        intro b hb
        simp only [beq_iff_eq]
        intro hbf
        exact hf (hx b hb hbf.symm)
      simp [hzero]
    · have : ((x == f) : Bool) = false := by simp [hxf]
      rw [this]
      simpa using ih ht

theorem runFileOps_inv (init : List Int) (ops : List FileOp)
    (hdist : init.Pairwise (fun a b => a = b → a = -1)) :
    FdInv (runFileOps init ops) := by
  have hinit : FdInv ⟨init.map (fun fd => some ⟨fd⟩), []⟩ := by
    constructor
    · intro f hf
      show fdCount _ f ≤ 1
      rw [fdCount, List.countP_map]
      have hcomp : ((fdMatch f) ∘ fun fd => some (AsyncFile.mk fd))
          = fun fd => fd == f := rfl
      rw [hcomp]
      exact pairwise_countP_le_one f hf init hdist
    · exact ⟨[], List.nodup_nil, by simp, by simp⟩
  have hstep : ∀ (l : List FileOp) (s : FileSystemState), FdInv s →
      FdInv (l.foldl FileOp.apply s) := by
    intro l
    induction l with
    | nil => intro s hs; exact hs
    | cons op rest ih =>
      intro s hs
      exact ih (FileOp.apply s op) (fileOp_apply_inv s op hs)
  exact hstep ops _ hinit

theorem flatMap_blocks_count (fds : List Int) (f : Int) :
    (fds.flatMap fun g => [FdEvent.removeListener g, FdEvent.closeFd g]).count
      (FdEvent.closeFd f) = fds.count f := by
  induction fds with
  | nil => simp
  | cons g rest ih =>
    rw [List.flatMap_cons, List.count_append, ih]
    by_cases hgf : g = f
    · subst hgf
      simp [List.count_cons, Nat.add_comm]
    · simp [List.count_cons, hgf]

theorem flatMap_blocks_adjacent (fds : List Int) :
    ∀ (k : Nat) (f : Int),
      (fds.flatMap fun g => [FdEvent.removeListener g, FdEvent.closeFd g])[k]?
        = some (FdEvent.closeFd f) →
      1 ≤ k ∧ (fds.flatMap fun g => [FdEvent.removeListener g, FdEvent.closeFd g])[k - 1]?
        = some (FdEvent.removeListener f) := by
  induction fds with
  | nil => intro k f hk; simp at hk
  | cons g rest ih =>
    intro k f hk
    rw [List.flatMap_cons] at hk ⊢
    match k with
    | 0 => simp at hk
    | 1 =>
      have hgf : g = f := by simpa using hk
      subst hgf
      exact ⟨le_refl _, by simp⟩
    | m + 2 =>
      have hk2 : (rest.flatMap fun g => [FdEvent.removeListener g, FdEvent.closeFd g])[m]?
          = some (FdEvent.closeFd f) := by simpa using hk
      obtain ⟨h1, h2⟩ := ih m f hk2
      obtain ⟨m2, rfl⟩ : ∃ m2, m = m2 + 1 := ⟨m - 1, by omega⟩
      refine ⟨by omega, ?_⟩
      show (FdEvent.removeListener g :: FdEvent.closeFd g :: _)[m2 + 2]? = _
      rw [List.getElem?_cons_succ, List.getElem?_cons_succ]
      simpa using h2

end StepHX

/-! ### Claim C10 (amended) -/

/-- C10 amended: move construction leaves the moved-from `AsyncFile` holding
fd −1, move assignment swaps the two descriptors (so the moved-from object
holds the target's previous fd, which is −1 only when the target was empty),
and the destructor does nothing on fd −1; consequently, across any sequence
of moves and destructions of handles whose initial descriptors are distinct,
every descriptor is closed at most once, and each close is immediately
preceded by the `removeListener` for the same descriptor. -/
theorem c10_fd_closed_once (init : List Int) (ops : List StepHX.FileOp)
    (hdist : init.Pairwise (fun a b => a = b → a = -1)) :
    (∀ that : StepHX.AsyncFile, that.moveConstruct.2.fd = -1) ∧
    (∀ self that : StepHX.AsyncFile,
      (self.moveAssignSwap that).1.fd = that.fd ∧
      (self.moveAssignSwap that).2.fd = self.fd) ∧
    (∀ self : StepHX.AsyncFile, self.fd = -1 → self.destroy = []) ∧
    (∀ f : Int,
      (StepHX.runFileOps init ops).events.count (StepHX.FdEvent.closeFd f) ≤ 1) ∧
    (∀ (k : Nat) (f : Int),
      (StepHX.runFileOps init ops).events[k]? = some (StepHX.FdEvent.closeFd f) →
      1 ≤ k ∧ (StepHX.runFileOps init ops).events[k - 1]?
        = some (StepHX.FdEvent.removeListener f)) := by
  obtain ⟨_, fds, hnd, _, hev⟩ := StepHX.runFileOps_inv init ops hdist
  refine ⟨fun that => rfl, fun self that => ⟨rfl, rfl⟩, ?_, ?_, ?_⟩
  · intro self hself
    rw [StepHX.AsyncFile.destroy, if_pos hself]
  · intro f
    rw [hev, StepHX.flatMap_blocks_count]
    exact List.nodup_iff_count_le_one.1 hnd f
  · intro k f hk
    rw [hev] at hk ⊢
    exact StepHX.flatMap_blocks_adjacent fds k f hk

/-- Witness for the amended C10 theorem at a concrete input: two handles with
fds 5 and 7, a move assignment and two destructions; fd 7 is closed at most
once. -/
theorem c10_fd_closed_once_witness :
    (StepHX.runFileOps [5, 7]
        [.moveAssign 0 1, .destroy 0, .destroy 1]).events.count
      (StepHX.FdEvent.closeFd 7) ≤ 1 :=
  (c10_fd_closed_once [5, 7] [.moveAssign 0 1, .destroy 0, .destroy 1]
    (by decide)).2.2.2.1 7

/-! ### Claim C10 (counterexample) -/

/-- C10 counterexample: move-assigning from an `AsyncFile` holding fd 7 into
one holding fd 5 swaps the descriptors, so the moved-from object holds fd 5,
not −1. -/
theorem c10_counterexample :
    (StepHX.AsyncFile.moveAssignSwap ⟨5⟩ ⟨7⟩).2.fd = 5 ∧
    (StepHX.AsyncFile.moveAssignSwap ⟨5⟩ ⟨7⟩).2.fd ≠ -1 := by
  decide

end LearningCXX
